import Mathlib

/-!
# Unsigned 128-bit division of `Coolio.cpp`

A shallow embedding of
`Assets/FloatingOrigin/Scripts/CustomValueTypes/UInt128/Coolio.cpp`:

* `PrimitiveDiv` (lines 20-95), the 128-by-64 divider taken from Hacker's Delight `divlu`;
* `MyDivMod1` (lines 98-147), the 128-by-128 divider;
* `operator/` and `operator%` (lines 155-177) on `absl::uint128`.

Machine integers are natural numbers; every 64-bit (128-bit) operation is reduced modulo
`2 ^ 64` (`2 ^ 128`) explicitly.  Operations whose behaviour the C++ language leaves undefined
(`__builtin_clzll(0)`, a shift by a negative count or by at least the width of the operand, a
division by zero) end the run with an error.  Each run also records, in evaluation order, the
leading-zero counts, shifts and divisions it evaluates, the calls of `PrimitiveDiv` made by
`MyDivMod1`, and the state at the head of every iteration of the restoring-division loop.
-/

namespace Coolio

/-! ## Runs: a result together with the record of what was evaluated -/

/-- Undefined behaviours that the operations of the source can have. -/
inductive UB where
  /-- `__builtin_clzll(0)`: "if x is 0, the result is undefined". -/
  | clzOfZero
  /-- A shift whose count is negative, or not smaller than the width of the shifted operand
  (the comment at lines 52-55 of the source quotes this rule). -/
  | shiftCount
  /-- An integer division whose divisor is zero. -/
  | divByZero
  deriving DecidableEq

/-- Events recorded while the code runs. -/
inductive Op where
  /-- `__builtin_clzll(x)` was evaluated. -/
  | clz (x : Nat)
  /-- `x << count` was evaluated on an operand of `width` bits. -/
  | shl (width x : Nat) (count : Int)
  /-- `x >> count` was evaluated on an operand of `width` bits. -/
  | shr (width x : Nat) (count : Int)
  /-- `x / y` was evaluated. -/
  | div (x y : Nat)
  /-- `MyDivMod1` called `PrimitiveDiv(u1, u0, v, _)`. -/
  | call (u1 u0 v : Nat)
  /-- The body of the loop at lines 132-143 was entered with counter `shift`, the given
  `dividend.all`, `divisor.all` and `quotient.s.low`. -/
  | iter (shift dividend divisor qlow : Nat)
  deriving DecidableEq

/-- A run of a piece of code: the events it recorded, and either its result or the undefined
behaviour that stopped it. -/
structure Run (α : Type) where
  log : List Op
  res : Except UB α

/-- Record one event. -/
def Run.tell (e : Op) : Run Unit := ⟨[e], .ok ()⟩

/-- Sequencing: the second part runs only when the first one produced a value. -/
def Run.andThen {α β : Type} (x : Run α) (f : α → Run β) : Run β :=
  match x.res with
  | .ok a => ⟨x.log ++ (f a).log, (f a).res⟩
  | .error e => ⟨x.log, .error e⟩

instance : Monad Run where
  pure a := ⟨[], .ok a⟩
  bind := Run.andThen

/-- The `PrimitiveDiv` calls recorded in a log, as triples `(u1, u0, v)`. -/
def callsOf : List Op → List (Nat × Nat × Nat)
  | [] => []
  | .call u1 u0 v :: l => (u1, u0, v) :: callsOf l
  | _ :: l => callsOf l

/-- The loop-head events recorded in a log, as tuples `(shift, dividend, divisor, qlow)`. -/
def itersOf : List Op → List (Nat × Nat × Nat × Nat)
  | [] => []
  | .iter k r d q :: l => (k, r, d, q) :: itersOf l
  | _ :: l => itersOf l

/-! ## Machine operations -/

/-- Largest `uint64_t`, the value of `(uint64_t)-1`. -/
def UINT64_MAX : Nat := 2 ^ 64 - 1

/-- Addition of `uint64_t`. -/
def add64 (x y : Nat) : Nat := (x + y) % 2 ^ 64

/-- Subtraction of `uint64_t`. -/
def sub64 (x y : Nat) : Nat := (x + (2 ^ 64 - y % 2 ^ 64)) % 2 ^ 64

/-- Multiplication of `uint64_t`. -/
def mul64 (x y : Nat) : Nat := (x * y) % 2 ^ 64

/-- Subtraction of `tu_int` (unsigned 128-bit). -/
def sub128 (x y : Nat) : Nat := (x + (2 ^ 128 - y % 2 ^ 128)) % 2 ^ 128

/-- Leading zeros of `x` among the bit positions `n - 1, ..., 0`. -/
def clzFrom : Nat → Nat → Nat
  | 0, _ => 0
  | n + 1, x => if 2 ^ n ≤ x then 0 else clzFrom n x + 1

/-- Number of leading zero bits of a nonzero 64-bit value. -/
def clz64 (x : Nat) : Nat := clzFrom 64 x

/-- The intrinsic `__builtin_clzll`: undefined at `0`. -/
def clzll (x : Nat) : Run Int :=
  ⟨[.clz x], if x = 0 then .error .clzOfZero else .ok (clz64 x)⟩

/-- Left shift `x << k` of an unsigned operand of `w` bits. -/
def shl (w x : Nat) (k : Int) : Run Nat :=
  ⟨[.shl w x k], if 0 ≤ k ∧ k < w then .ok ((x <<< k.toNat) % 2 ^ w) else .error .shiftCount⟩

/-- Right shift `x >> k` of an unsigned operand of `w` bits. -/
def shr (w x : Nat) (k : Int) : Run Nat :=
  ⟨[.shr w x k], if 0 ≤ k ∧ k < w then .ok (x >>> k.toNat) else .error .shiftCount⟩

/-- Unsigned division `x / y`. -/
def udiv (x y : Nat) : Run Nat :=
  ⟨[.div x y], if y = 0 then .error .divByZero else .ok (x / y)⟩

/-! ## `PrimitiveDiv` -/

/-- The number base `b = 1ULL << 32` of line 25. -/
def b : Nat := 2 ^ 32

/-- The digit-correction loop of lines 72-77 (and, with `un0` for `un1`, of lines 86-91),
started with the quotient digit `q` and the trial remainder `rhat`.  It returns the final
`q` and `rhat` and the number `n` of executions of the loop body, counted from the given `n`. -/
def correct (vn1 vn0 un : Nat) (q rhat n : Nat) : Nat × Nat × Nat :=
  if q ≥ b ∨ mul64 q vn0 > add64 (mul64 b rhat) un then
    if add64 rhat vn1 ≥ b then (sub64 q 1, add64 rhat vn1, n + 1)
    else correct vn1 vn0 un (sub64 q 1) (add64 rhat vn1) (n + 1)
  else (q, rhat, n)
termination_by q
decreasing_by
  rename_i h _
  have hq : q ≠ 0 := by
    rintro rfl
    rcases h with h | h
    · exact absurd h (by decide)
    · simp [mul64] at h
  simp only [sub64]
  omega

/-- The pairs `(q, rhat)` with which the condition of the loop of lines 72-77 (or 86-91) is
evaluated, in order, when the loop is started with `q` and `rhat`: the loop of `correct`, with
the same tests, recording the state at each evaluation of its condition. -/
def correctTests (vn1 vn0 un : Nat) (q rhat : Nat) : List (Nat × Nat) :=
  if q ≥ b ∨ mul64 q vn0 > add64 (mul64 b rhat) un then
    if add64 rhat vn1 ≥ b then [(q, rhat)]
    else (q, rhat) :: correctTests vn1 vn0 un (sub64 q 1) (add64 rhat vn1)
  else [(q, rhat)]
termination_by q
decreasing_by
  rename_i h _
  have hq : q ≠ 0 := by
    rintro rfl
    rcases h with h | h
    · exact absurd h (by decide)
    · simp [mul64] at h
  simp only [sub64]
  omega

/-- Values of the locals of `PrimitiveDiv` on the path that does not return the sentinel. -/
structure Locals where
  /-- The shift amount `s`. -/
  s : Int
  /-- The normalised divisor `v`. -/
  v : Nat
  un64 : Nat
  un10 : Nat
  vn1 : Nat
  vn0 : Nat
  un1 : Nat
  un0 : Nat
  /-- The first estimate `un64 / vn1` of `q1` (line 69). -/
  q1est : Nat
  /-- The digit `q1` after the loop of lines 72-77. -/
  q1 : Nat
  /-- Executions of the body of the loop of lines 72-77. -/
  iters1 : Nat
  un21 : Nat
  /-- The first estimate `un21 / vn1` of `q0` (line 83). -/
  q0est : Nat
  /-- The digit `q0` after the loop of lines 86-91. -/
  q0 : Nat
  /-- Executions of the body of the loop of lines 86-91. -/
  iters0 : Nat
  /-- The value stored through `r` (line 93). -/
  r : Nat
  deriving DecidableEq

/-- Lines 41-58 of `PrimitiveDiv`: the shift amount `s`, then the normalised divisor and the
dividend digit pairs `(s, v, un64, un10)`. -/
def normalize (u1 u0 v : Nat) : Run (Int × Nat × Nat × Nat) := do
  let s ← clzll v
  if s > 0 then do
    let vs ← shl 64 v s
    let hi ← shl 64 u1 s
    let lo ← shr 64 u0 (64 - s)
    let un10 ← shl 64 u0 s
    pure (s, vs, hi ||| lo, un10)
  else
    pure (s, v, u1, u0)

/-- Lines 60-93 of `PrimitiveDiv`, from the normalised operands. -/
def digits (s : Int) (v un64 un10 : Nat) : Run Locals := do
  let vn1 ← shr 64 v 32
  let vn0 := v &&& 0xFFFFFFFF
  let un1 ← shr 64 un10 32
  let un0 := un10 &&& 0xFFFFFFFF
  let q1est ← udiv un64 vn1
  let rhat := sub64 un64 (mul64 q1est vn1)
  let c1 := correct vn1 vn0 un1 q1est rhat 0
  let q1 := c1.1
  let un21 := sub64 (add64 (mul64 un64 b) un1) (mul64 q1 v)
  let q0est ← udiv un21 vn1
  let rhat := sub64 un21 (mul64 q0est vn1)
  let c0 := correct vn1 vn0 un0 q0est rhat 0
  let q0 := c0.1
  let r ← shr 64 (sub64 (add64 (mul64 un21 b) un0) (mul64 q0 v)) s
  pure { s := s, v := v, un64 := un64, un10 := un10, vn1 := vn1, vn0 := vn0, un1 := un1,
         un0 := un0, q1est := q1est, q1 := q1, iters1 := c1.2.2, un21 := un21,
         q0est := q0est, q0 := q0, iters0 := c0.2.2, r := r }

/-- The locals of `PrimitiveDiv(u1, u0, v, r)` past the overflow test (lines 41-93). -/
def divlu (u1 u0 v : Nat) : Run Locals := do
  let n ← normalize u1 u0 v
  digits n.1 n.2.1 n.2.2.1 n.2.2.2

/-- `PrimitiveDiv(u1, u0, v, r)`: the pair of the returned quotient and of the value stored
through `r`. -/
def PrimitiveDiv (u1 u0 v : Nat) : Run (Nat × Nat) :=
  if u1 ≥ v then
    pure (UINT64_MAX, UINT64_MAX)
  else do
    let l ← divlu u1 u0 v
    pure (add64 (mul64 l.q1 b) l.q0, l.r)

/-! ## `MyDivMod1` -/

/-- The union `utwords`: a 128-bit value seen as its two 64-bit words. -/
structure utwords where
  low : Nat
  high : Nat
  deriving DecidableEq

/-- The member `all` of `utwords`. -/
def utwords.all (x : utwords) : Nat := x.high * 2 ^ 64 + x.low

/-- The words of the 128-bit value `a` (an assignment to the member `all`). -/
def utwords.ofAll (a : Nat) : utwords := ⟨a % 2 ^ 64, a / 2 ^ 64 % 2 ^ 64⟩

/-- The variables that the loop of lines 132-143 updates. -/
structure LoopState where
  dividend : utwords
  divisor : utwords
  quotient : utwords
  deriving DecidableEq

/-- The loop `for (; shift >= 0; --shift)` of lines 132-143.  The first argument is
`shift + 1`, the number of counter values `shift, shift - 1, ..., 0` still to visit. -/
def restoringLoop : Nat → LoopState → Run LoopState
  | 0, st => pure st
  | shift + 1, st => do
    Run.tell (.iter shift st.dividend.all st.divisor.all st.quotient.low)
    let ql ← shl 64 st.quotient.low 1
    let st1 : LoopState :=
      if st.dividend.all ≥ st.divisor.all then
        { dividend := utwords.ofAll (sub128 st.dividend.all st.divisor.all),
          divisor := st.divisor,
          quotient := { st.quotient with low := ql ||| 1 } }
      else
        { st with quotient := { st.quotient with low := ql } }
    let d ← shr 128 st1.divisor.all 1
    restoringLoop shift { st1 with divisor := utwords.ofAll d }

/-- `MyDivMod1(a, b, rem)`: the pair of the returned quotient and of the value that is stored
through `rem` when `rem` is not null. -/
def MyDivMod1 (a b : Nat) : Run (Nat × Nat) :=
  let dividend := utwords.ofAll a
  let divisor := utwords.ofAll b
  if divisor.high = 0 then
    if dividend.high < divisor.low then do
      Run.tell (.call dividend.high dividend.low divisor.low)
      let p ← PrimitiveDiv dividend.high dividend.low divisor.low
      let quotient : utwords := { low := p.1, high := 0 }
      let remainder : utwords := { low := p.2, high := 0 }
      pure (quotient.all, remainder.all)
    else do
      Run.tell (.call 0 dividend.high divisor.low)
      let p1 ← PrimitiveDiv 0 dividend.high divisor.low
      let dividend : utwords := { dividend with high := p1.2 }
      Run.tell (.call dividend.high dividend.low divisor.low)
      let p0 ← PrimitiveDiv dividend.high dividend.low divisor.low
      let quotient : utwords := { low := p0.1, high := p1.1 }
      let remainder : utwords := { low := p0.2, high := 0 }
      pure (quotient.all, remainder.all)
  else do
    let cb ← clzll divisor.high
    let ca ← clzll dividend.high
    let shift : Int := cb - ca
    let d ← shl 128 divisor.all shift
    let st ← restoringLoop (shift + 1).toNat
      { dividend := dividend, divisor := utwords.ofAll d, quotient := { low := 0, high := 0 } }
    pure (st.quotient.all, st.dividend.all)

/-! ## The operators on `absl::uint128` -/

/-- The function `absl::Uint128Low64`. -/
def Uint128Low64 (x : Nat) : Nat := x % 2 ^ 64

/-- The function `absl::Uint128High64`. -/
def Uint128High64 (x : Nat) : Nat := x / 2 ^ 64 % 2 ^ 64

/-- The function `absl::MakeUint128(high, low)`. -/
def MakeUint128 (high low : Nat) : Nat := high % 2 ^ 64 * 2 ^ 64 + low % 2 ^ 64

/-- The operator `operator/` of lines 155-165.  Its call `MyDivMod1<PrimitiveDiv>(...)` is a
call of the function `MyDivMod1` of lines 98-147, which divides with `PrimitiveDiv`; the null
`rem` means that the remainder is not stored. -/
def operatorDiv (lhs rhs : Nat) : Run Nat := do
  let lhs_u : utwords := { low := Uint128Low64 lhs, high := Uint128High64 lhs }
  let rhs_u : utwords := { low := Uint128Low64 rhs, high := Uint128High64 rhs }
  let p ← MyDivMod1 lhs_u.all rhs_u.all
  let n := utwords.ofAll p.1
  pure (MakeUint128 n.high n.low)

/-- The operator `operator%` of lines 167-177: the same call, with the remainder stored in
`rem.all`. -/
def operatorMod (lhs rhs : Nat) : Run Nat := do
  let lhs_u : utwords := { low := Uint128Low64 lhs, high := Uint128High64 lhs }
  let rhs_u : utwords := { low := Uint128Low64 rhs, high := Uint128High64 rhs }
  let p ← MyDivMod1 lhs_u.all rhs_u.all
  let rem := utwords.ofAll p.2
  pure (MakeUint128 rem.high rem.low)

/-! ## Leading zeros -/

/-- Shifting a nonzero value below `2 ^ n` left by its number of leading zeros sets bit
`n - 1` and loses nothing. -/
theorem clzFrom_spec (n : Nat) : ∀ x : Nat, 0 < x → x < 2 ^ n →
    clzFrom n x < n ∧ 2 ^ n ≤ 2 * (x * 2 ^ clzFrom n x) ∧ x * 2 ^ clzFrom n x < 2 ^ n := by
  induction n with
  | zero => intro x h0 h1; simp at h1; omega
  | succ n ih =>
    intro x h0 h1
    by_cases h : 2 ^ n ≤ x
    · simp only [clzFrom, if_pos h, pow_zero, mul_one]
      refine ⟨by omega, ?_, h1⟩
      rw [pow_succ]; omega
    · simp only [clzFrom, if_neg h]
      obtain ⟨_, h3, h4⟩ := ih x h0 (by omega)
      refine ⟨by omega, ?_, ?_⟩
      · rw [pow_succ, pow_succ]; nlinarith
      · rw [pow_succ, pow_succ]; nlinarith

/-- A nonzero 64-bit `x` has fewer than 64 leading zeros, and shifting it left by that many
places gives a 64-bit value with the top bit set. -/
theorem clz64_spec {x : Nat} (h0 : x ≠ 0) (h1 : x < 2 ^ 64) :
    clz64 x < 64 ∧ 2 ^ 63 ≤ x * 2 ^ clz64 x ∧ x * 2 ^ clz64 x < 2 ^ 64 := by
  obtain ⟨h2, h3, h4⟩ := clzFrom_spec 64 x (by omega) h1
  refine ⟨h2, ?_, h4⟩
  unfold clz64
  omega

/-! ## Arithmetic modulo `2 ^ 64` -/

theorem add64_of_lt {x y : Nat} (h : x + y < 2 ^ 64) : add64 x y = x + y := by
  unfold add64; exact Nat.mod_eq_of_lt h

theorem mul64_of_lt {x y : Nat} (h : x * y < 2 ^ 64) : mul64 x y = x * y := by
  unfold mul64; exact Nat.mod_eq_of_lt h

theorem sub64_of_le {x y : Nat} (h : y ≤ x) (hx : x < 2 ^ 64) : sub64 x y = x - y := by
  unfold sub64; omega

/-- Modular form of a "multiply and subtract" step: if `x * B + d = q * V + r` with `r` a
64-bit value, the wrapped computation of `x * B + d - q * V` is `r`, whether or not the
products wrap. -/
theorem sub64_add64_mul64 {x B d q V r : Nat} (h : x * B + d = q * V + r) (hr : r < 2 ^ 64) :
    sub64 (add64 (mul64 x B) d) (mul64 q V) = r := by
  unfold sub64 add64 mul64
  have h1 : (x * B % 2 ^ 64 + d) % 2 ^ 64 = (q * V % 2 ^ 64 + r) % 2 ^ 64 := by
    rw [Nat.mod_add_mod, h, Nat.mod_add_mod]
  rw [h1]
  omega

/-! ## The digit-correction loop -/

/-- The digit-correction loop ends with the exact quotient digit `Q`, the quotient of
`N = hi * 2 ^ 32 + un` by `V = vn1 * 2 ^ 32 + vn0`. -/
theorem correct_fst_aux {vn1 vn0 un hi V N Q : Nat} (hVdef : V = vn1 * 2 ^ 32 + vn0)
    (hNdef : N = hi * 2 ^ 32 + un) (hV : 2 ^ 63 ≤ V)
    (hvn0 : vn0 < 2 ^ 32) (hvn1 : vn1 < 2 ^ 32) (hun : un < 2 ^ 32) (hhi : hi < V)
    (hQ1 : Q * V ≤ N) (hQ2 : N < (Q + 1) * V) :
    ∀ q rhat n : Nat, q * vn1 + rhat = hi → rhat < 2 ^ 32 → Q ≤ q →
      (correct vn1 vn0 un q rhat n).1 = Q := by
  intro q
  induction q using Nat.strong_induction_on with
  | _ q ih =>
    intro rhat n hq hr hQ
    have hmul : ∀ x : Nat, x * V = x * vn1 * 2 ^ 32 + x * vn0 := by
      intro x; rw [hVdef]; ring
    have hle : ∀ x : Nat, x * V ≤ N → x ≤ Q := by
      intro x hx
      by_contra hcon
      have h1 : (Q + 1) * V ≤ x * V := Nat.mul_le_mul_right V (by omega)
      omega
    have hrhs : add64 (mul64 b rhat) un = 2 ^ 32 * rhat + un := by
      have : b * rhat = 2 ^ 32 * rhat := rfl
      unfold add64 mul64
      rw [this]
      omega
    rw [correct, hrhs]
    by_cases hc : q ≥ b ∨ mul64 q vn0 > 2 ^ 32 * rhat + un
    · -- the estimate is too large
      have hbig : N < q * V := by
        rcases hc with hc | hc
        · have hb : (2:Nat) ^ 32 ≤ q := hc
          have h1 : 2 ^ 32 * V ≤ q * V := Nat.mul_le_mul_right V hb
          omega
        · have : mul64 q vn0 ≤ q * vn0 := Nat.mod_le _ _
          rw [hmul]
          omega
      have hlt : Q < q := by
        by_contra hcon
        have h1 : q * V ≤ Q * V := Nat.mul_le_mul_right V (by omega)
        omega
      have hq0 : 0 < q := by omega
      have hq64 : q < 2 ^ 64 := by
        have h1 : q * 1 ≤ q * vn1 := Nat.mul_le_mul_left _ (by omega)
        omega
      have hsub : sub64 q 1 = q - 1 := by unfold sub64; omega
      have hadd : add64 rhat vn1 = rhat + vn1 := add64_of_lt (by omega)
      have hq1 : (q - 1) * vn1 + (rhat + vn1) = hi := by
        have h1 : (q - 1) * vn1 = q * vn1 - 1 * vn1 := Nat.sub_mul q 1 vn1
        have h2 : vn1 ≤ q * vn1 := Nat.le_mul_of_pos_left vn1 hq0
        omega
      rw [if_pos hc, hsub, hadd]
      by_cases hbr : rhat + vn1 ≥ b
      · rw [if_pos hbr]
        show q - 1 = Q
        have hb : (2:Nat) ^ 32 ≤ rhat + vn1 := hbr
        apply Nat.le_antisymm _ (by omega)
        apply hle
        have hlt32 : q - 1 < 2 ^ 32 := by
          have h1 : (q - 1) * vn1 < 2 ^ 32 * vn1 := by omega
          exact Nat.lt_of_mul_lt_mul_right h1
        have h2 : (q - 1) * vn0 ≤ (q - 1) * 2 ^ 32 := Nat.mul_le_mul_left _ (by omega)
        rw [hmul]
        omega
      · rw [if_neg hbr]
        have hb : rhat + vn1 < 2 ^ 32 := by
          have : ¬ (2:Nat) ^ 32 ≤ rhat + vn1 := hbr
          omega
        exact ih (q - 1) (by omega) (rhat + vn1) (n + 1) hq1 hb (by omega)
    · rw [if_neg hc]
      show q = Q
      push_neg at hc
      obtain ⟨hc1, hc2⟩ := hc
      have hb : q < 2 ^ 32 := hc1
      have hm : mul64 q vn0 = q * vn0 := by
        apply mul64_of_lt
        have h1 : q * vn0 ≤ q * 2 ^ 32 := Nat.mul_le_mul_left _ (by omega)
        omega
      rw [hm] at hc2
      apply Nat.le_antisymm _ hQ
      apply hle
      rw [hmul]
      omega

/-! ## Results of runs -/

theorem Run.res_bind {α β : Type} (x : Run α) (f : α → Run β) :
    (x >>= f).res = x.res >>= fun a => (f a).res := by
  show (Run.andThen x f).res = _
  unfold Run.andThen
  cases h : x.res <;> rfl

theorem Run.res_pure {α : Type} (a : α) : (pure a : Run α).res = .ok a := rfl

theorem ok_bind {α β : Type} (a : α) (f : α → Except UB β) :
    ((Except.ok a : Except UB α) >>= f) = f a := rfl

theorem shr_res {w x : Nat} {k : Nat} (h : k < w) :
    (shr w x (k : Int)).res = .ok (x / 2 ^ k) := by
  have h1 : (0 : Int) ≤ (k : Int) ∧ (k : Int) < (w : Int) := ⟨by omega, by omega⟩
  simp only [shr, if_pos h1, Int.toNat_ofNat, Nat.shiftRight_eq_div_pow]

theorem shl_res {w x : Nat} {k : Nat} (h : k < w) :
    (shl w x (k : Int)).res = .ok (x * 2 ^ k % 2 ^ w) := by
  have h1 : (0 : Int) ≤ (k : Int) ∧ (k : Int) < (w : Int) := ⟨by omega, by omega⟩
  simp only [shl, if_pos h1, Int.toNat_ofNat, Nat.shiftLeft_eq]

theorem udiv_res {x y : Nat} (h : y ≠ 0) : (udiv x y).res = .ok (x / y) := by
  simp only [udiv, if_neg h]

theorem clzll_res {x : Nat} (h : x ≠ 0) : (clzll x).res = .ok (clz64 x : Int) := by
  simp only [clzll, if_neg h]

/-! ## `PrimitiveDiv` returns quotient and remainder -/

/-- One quotient digit (lines 69-80, and again lines 83-93): from a high part `hi < V` and a
32-bit digit `d`, the corrected digit is the quotient of `hi * 2 ^ 32 + d` by the normalised
divisor `V`, and the wrapped "multiply and subtract" is the remainder. -/
theorem digit_step {V hi d : Nat} (hV1 : 2 ^ 63 ≤ V) (hV2 : V < 2 ^ 64) (hhi : hi < V)
    (hd : d < 2 ^ 32) :
    (correct (V / 2 ^ 32) (V % 2 ^ 32) d (hi / (V / 2 ^ 32))
        (sub64 hi (mul64 (hi / (V / 2 ^ 32)) (V / 2 ^ 32))) 0).1 = (hi * 2 ^ 32 + d) / V ∧
    sub64 (add64 (mul64 hi b) d) (mul64 ((hi * 2 ^ 32 + d) / V) V) = (hi * 2 ^ 32 + d) % V := by
  have hVpos : 0 < V := by omega
  have hVdef : V = V / 2 ^ 32 * 2 ^ 32 + V % 2 ^ 32 := (Nat.div_add_mod' V (2 ^ 32)).symm
  generalize hvn1 : V / 2 ^ 32 = vn1 at hVdef ⊢
  generalize hvn0 : V % 2 ^ 32 = vn0 at hVdef ⊢
  have hvn0lt : vn0 < 2 ^ 32 := by rw [← hvn0]; exact Nat.mod_lt _ (by norm_num)
  have hvn1lt : vn1 < 2 ^ 32 := by omega
  have hvn1pos : 0 < vn1 := by omega
  have hdm : (hi * 2 ^ 32 + d) / V * V + (hi * 2 ^ 32 + d) % V = hi * 2 ^ 32 + d :=
    Nat.div_add_mod' _ _
  have hmlt : (hi * 2 ^ 32 + d) % V < V := Nat.mod_lt _ hVpos
  generalize hQ : (hi * 2 ^ 32 + d) / V = Q at hdm ⊢
  generalize hR : (hi * 2 ^ 32 + d) % V = R at hdm hmlt ⊢
  have hqm : hi / vn1 * vn1 + hi % vn1 = hi := Nat.div_add_mod' _ _
  have hrlt : hi % vn1 < vn1 := Nat.mod_lt _ hvn1pos
  generalize hq : hi / vn1 = q at hqm ⊢
  generalize hr : hi % vn1 = r at hqm hrlt
  have hrhat : sub64 hi (mul64 q vn1) = r := by
    have h1 : mul64 q vn1 = q * vn1 := mul64_of_lt (by omega)
    rw [h1]; unfold sub64; omega
  rw [hrhat]
  constructor
  · apply correct_fst_aux hVdef rfl hV1 hvn0lt hvn1lt hd hhi (by omega) (by
      rw [Nat.succ_mul]; omega) q r 0 hqm (by omega)
    -- the first estimate is not below the digit
    by_contra hcon
    have h1 : (q + 1) * vn1 ≤ Q * vn1 := Nat.mul_le_mul_right vn1 (by omega)
    have h2 : Q * V = Q * vn1 * 2 ^ 32 + Q * vn0 := by rw [hVdef]; ring
    rw [Nat.succ_mul] at h1
    omega
  · exact sub64_add64_mul64 (by rw [show b = 2 ^ 32 from rfl]; omega) (by omega)

/-- Lines 60-93 on normalised operands: the locals hold the exact quotient digits and partial
remainders. -/
theorem digits_res {s V un64 un10 : Nat} (hs : s < 64) (hV1 : 2 ^ 63 ≤ V) (hV2 : V < 2 ^ 64)
    (hun64 : un64 < V) (hun10 : un10 < 2 ^ 64) :
    ∃ l : Locals, (digits s V un64 un10).res = .ok l ∧
      l.s = s ∧ l.v = V ∧ l.un64 = un64 ∧ l.un10 = un10 ∧
      l.vn1 = V / 2 ^ 32 ∧ l.vn0 = V % 2 ^ 32 ∧
      l.un1 = un10 / 2 ^ 32 ∧ l.un0 = un10 % 2 ^ 32 ∧
      l.q1est = un64 / l.vn1 ∧
      l.q1 = (un64 * 2 ^ 32 + l.un1) / V ∧
      l.un21 = (un64 * 2 ^ 32 + l.un1) % V ∧
      l.q0est = l.un21 / l.vn1 ∧
      l.q0 = (l.un21 * 2 ^ 32 + l.un0) / V ∧
      l.r = (l.un21 * 2 ^ 32 + l.un0) % V / 2 ^ s := by
  have hvn1 : V / 2 ^ 32 ≠ 0 := by omega
  have h32 : (32 : Int) = ((32 : Nat) : Int) := rfl
  have hand : ∀ x : Nat, x &&& 0xFFFFFFFF = x % 2 ^ 32 := fun x =>
    Nat.and_pow_two_sub_one_eq_mod x 32
  obtain ⟨hq1, hun21⟩ := digit_step hV1 hV2 hun64 (show un10 / 2 ^ 32 < 2 ^ 32 by omega)
  have hR1 : (un64 * 2 ^ 32 + un10 / 2 ^ 32) % V < V := Nat.mod_lt _ (by omega)
  obtain ⟨hq0, hr⟩ := digit_step hV1 hV2 hR1 (show un10 % 2 ^ 32 < 2 ^ 32 by omega)
  simp only [digits, Run.res_bind, h32, shr_res (show 32 < 64 by norm_num), ok_bind, hand,
    udiv_res hvn1, hq1, hun21, hq0, hr, shr_res hs, Run.res_pure]
  exact ⟨_, rfl, rfl, rfl, rfl, rfl, rfl, rfl, rfl, rfl, rfl, rfl, rfl, rfl, rfl, rfl⟩

/-- Long division by two 32-bit digits: the two digit quotients concatenate to the quotient of
the four-digit number, and the last partial remainder is its remainder. -/
theorem two_digit_div (V hi lo : Nat) (hV : 0 < V) :
    (hi * 2 ^ 32 + lo / 2 ^ 32) / V * 2 ^ 32 +
        ((hi * 2 ^ 32 + lo / 2 ^ 32) % V * 2 ^ 32 + lo % 2 ^ 32) / V = (hi * 2 ^ 64 + lo) / V ∧
    ((hi * 2 ^ 32 + lo / 2 ^ 32) % V * 2 ^ 32 + lo % 2 ^ 32) % V = (hi * 2 ^ 64 + lo) % V := by
  have h1 : (hi * 2 ^ 32 + lo / 2 ^ 32) / V * V + (hi * 2 ^ 32 + lo / 2 ^ 32) % V =
      hi * 2 ^ 32 + lo / 2 ^ 32 := Nat.div_add_mod' _ _
  generalize (hi * 2 ^ 32 + lo / 2 ^ 32) / V = Q1 at h1 ⊢
  generalize (hi * 2 ^ 32 + lo / 2 ^ 32) % V = R1 at h1 ⊢
  have h0 : (R1 * 2 ^ 32 + lo % 2 ^ 32) / V * V + (R1 * 2 ^ 32 + lo % 2 ^ 32) % V =
      R1 * 2 ^ 32 + lo % 2 ^ 32 := Nat.div_add_mod' _ _
  have h0lt : (R1 * 2 ^ 32 + lo % 2 ^ 32) % V < V := Nat.mod_lt _ hV
  generalize (R1 * 2 ^ 32 + lo % 2 ^ 32) / V = Q0 at h0 ⊢
  generalize (R1 * 2 ^ 32 + lo % 2 ^ 32) % V = R0 at h0 h0lt ⊢
  have h2 : V * (Q1 * 2 ^ 32 + Q0) = Q1 * V * 2 ^ 32 + Q0 * V := by ring
  have h3 := (Nat.div_mod_unique (a := hi * 2 ^ 64 + lo) (c := R0) (d := Q1 * 2 ^ 32 + Q0)
    hV).2 ⟨by rw [h2]; omega, h0lt⟩
  exact ⟨h3.1.symm, h3.2.symm⟩

/-- Lines 41-58 on valid operands: the divisor is shifted left by its leading zeros and the
dividend by as many places, no bit being lost. -/
theorem normalize_res {u1 u0 v : Nat} (hv0 : v ≠ 0) (hv : v < 2 ^ 64) (hu1 : u1 < v)
    (hu0 : u0 < 2 ^ 64) :
    (normalize u1 u0 v).res = .ok ((clz64 v : Int), v * 2 ^ clz64 v,
      u1 * 2 ^ clz64 v + u0 / 2 ^ (64 - clz64 v), u0 * 2 ^ clz64 v % 2 ^ 64) := by
  obtain ⟨hs, hV1, hV2⟩ := clz64_spec hv0 hv
  unfold normalize
  rw [Run.res_bind, clzll_res hv0, ok_bind]
  generalize clz64 v = s at hs hV1 hV2 ⊢
  rcases Nat.eq_zero_or_pos s with rfl | hpos
  · have h : ¬ ((0 : Nat) : Int) > 0 := by simp
    rw [if_neg h, Run.res_pure]
    have h1 : u0 / 2 ^ 64 = 0 := Nat.div_eq_of_lt hu0
    simp only [pow_zero, Nat.mul_one, Nat.sub_zero, h1, Nat.add_zero, Nat.mod_eq_of_lt hu0]
  · have h : (s : Int) > 0 := by omega
    have hsub : (64 : Int) - (s : Int) = ((64 - s : Nat) : Int) := by omega
    have h2s : 0 < 2 ^ s := Nat.pow_pos (by norm_num)
    have hu1s : u1 * 2 ^ s < 2 ^ 64 := by
      have : u1 * 2 ^ s ≤ v * 2 ^ s := Nat.mul_le_mul_right _ (by omega)
      omega
    have hlo : u0 / 2 ^ (64 - s) < 2 ^ s := by
      apply (Nat.div_lt_iff_lt_mul (Nat.pow_pos (by norm_num))).2
      rw [← pow_add]
      have : s + (64 - s) = 64 := by omega
      rw [this]; exact hu0
    have hor : u1 * 2 ^ s ||| u0 / 2 ^ (64 - s) = u1 * 2 ^ s + u0 / 2 ^ (64 - s) := by
      rw [Nat.mul_comm u1, Nat.mul_add_lt_is_or hlo]
    rw [if_pos h]
    simp only [Run.res_bind, shl_res hs, ok_bind, hsub, shr_res (show 64 - s < 64 by omega),
      Run.res_pure, Nat.mod_eq_of_lt hV2, Nat.mod_eq_of_lt hu1s, hor]

/-- On valid operands (`v ≠ 0`, `u1 < v`) `PrimitiveDiv` returns the quotient and stores the
remainder of `u1 * 2 ^ 64 + u0` by `v`. -/
theorem PrimitiveDiv_res (u1 u0 v : Nat) (hv0 : v ≠ 0) (hv : v < 2 ^ 64) (hu1 : u1 < v)
    (hu0 : u0 < 2 ^ 64) :
    (PrimitiveDiv u1 u0 v).res = .ok ((u1 * 2 ^ 64 + u0) / v, (u1 * 2 ^ 64 + u0) % v) := by
  obtain ⟨hs, hV1, hV2⟩ := clz64_spec hv0 hv
  have hnorm := normalize_res hv0 hv hu1 hu0
  generalize hsdef : clz64 v = s at hs hV1 hV2 hnorm
  have h2s : 0 < 2 ^ s := Nat.pow_pos (by norm_num)
  -- the shifted dividend
  have hsplit : (u0 / 2 ^ (64 - s)) * 2 ^ 64 + u0 * 2 ^ s % 2 ^ 64 = u0 * 2 ^ s := by
    have h64 : (2 : Nat) ^ 64 = 2 ^ (64 - s) * 2 ^ s := by
      rw [← pow_add]; congr 1; omega
    have h1 : u0 * 2 ^ s / 2 ^ 64 = u0 / 2 ^ (64 - s) := by
      rw [h64]; exact Nat.mul_div_mul_right _ _ h2s
    rw [← h1]; exact Nat.div_add_mod' _ _
  have hU : (u1 * 2 ^ s + u0 / 2 ^ (64 - s)) * 2 ^ 64 + u0 * 2 ^ s % 2 ^ 64 =
      (u1 * 2 ^ 64 + u0) * 2 ^ s := by
    have : (u1 * 2 ^ s + u0 / 2 ^ (64 - s)) * 2 ^ 64 =
        u1 * 2 ^ 64 * 2 ^ s + u0 / 2 ^ (64 - s) * 2 ^ 64 := by ring
    rw [this, Nat.add_mul, ← hsplit]; omega
  have hun10 : u0 * 2 ^ s % 2 ^ 64 < 2 ^ 64 := Nat.mod_lt _ (by norm_num)
  generalize u1 * 2 ^ s + u0 / 2 ^ (64 - s) = un64 at hU hnorm
  generalize u0 * 2 ^ s % 2 ^ 64 = un10 at hU hnorm hun10
  have hun64 : un64 < v * 2 ^ s := by
    have h1 : (u1 * 2 ^ 64 + u0) * 2 ^ s < v * 2 ^ 64 * 2 ^ s := by
      apply Nat.mul_lt_mul_of_pos_right _ h2s
      have : (u1 + 1) * 2 ^ 64 ≤ v * 2 ^ 64 := Nat.mul_le_mul_right _ hu1
      omega
    have h2 : v * 2 ^ 64 * 2 ^ s = v * 2 ^ s * 2 ^ 64 := by ring
    by_contra hcon
    have h3 : v * 2 ^ s * 2 ^ 64 ≤ un64 * 2 ^ 64 := Nat.mul_le_mul_right _ (by omega)
    omega
  obtain ⟨l, hl, -, -, -, -, -, -, hun1, hun0, -, hq1, hun21, -, hq0, hr⟩ :=
    digits_res hs hV1 hV2 hun64 hun10
  obtain ⟨hquot, hrem⟩ := two_digit_div (v * 2 ^ s) un64 un10 (by omega)
  rw [← hun1, ← hq1, ← hun21, ← hun0, ← hq0] at hquot
  rw [← hun1, ← hun21, ← hun0] at hrem
  -- digits are below the base
  have hq1lt : l.q1 < 2 ^ 32 := by
    rw [hq1]
    apply (Nat.div_lt_iff_lt_mul (by omega)).2
    have : (un64 + 1) * 2 ^ 32 ≤ v * 2 ^ s * 2 ^ 32 := Nat.mul_le_mul_right _ hun64
    rw [hun1]
    have : un10 / 2 ^ 32 < 2 ^ 32 := by omega
    omega
  have hq0lt : l.q0 < 2 ^ 32 := by
    rw [hq0]
    apply (Nat.div_lt_iff_lt_mul (by omega)).2
    have h1 : l.un21 < v * 2 ^ s := by rw [hun21]; exact Nat.mod_lt _ (by omega)
    have : (l.un21 + 1) * 2 ^ 32 ≤ v * 2 ^ s * 2 ^ 32 := Nat.mul_le_mul_right _ h1
    rw [hun0]
    omega
  have hret : add64 (mul64 l.q1 b) l.q0 = l.q1 * 2 ^ 32 + l.q0 := by
    unfold add64 mul64
    rw [show b = 2 ^ 32 from rfl]
    omega
  have hne : ¬ u1 ≥ v := by omega
  unfold PrimitiveDiv divlu
  rw [if_neg hne]
  simp only [Run.res_bind, hnorm, ok_bind, hl, Run.res_pure, hret, hquot, hr, hrem, hU]
  rw [Nat.mul_div_mul_right _ _ h2s, Nat.mul_mod_mul_right, Nat.mul_div_cancel _ h2s]

/-! ## `MyDivMod1`: the fast path -/

theorem ofAll_high {a : Nat} (ha : a < 2 ^ 128) : (utwords.ofAll a).high = a / 2 ^ 64 := by
  show a / 2 ^ 64 % 2 ^ 64 = a / 2 ^ 64
  omega

theorem ofAll_low (a : Nat) : (utwords.ofAll a).low = a % 2 ^ 64 := rfl

theorem all_ofAll {a : Nat} (ha : a < 2 ^ 128) : (utwords.ofAll a).all = a := by
  show a / 2 ^ 64 % 2 ^ 64 * 2 ^ 64 + a % 2 ^ 64 = a
  omega

/-- The fast path of `MyDivMod1` (divisor below `2 ^ 64`): quotient and remainder. -/
theorem MyDivMod1_fast_res {a b : Nat} (ha : a < 2 ^ 128) (hb0 : b ≠ 0) (hb : b < 2 ^ 64) :
    (MyDivMod1 a b).res = .ok (a / b, a % b) := by
  have hbh : (utwords.ofAll b).high = 0 := by
    rw [ofAll_high (by omega)]; exact Nat.div_eq_of_lt hb
  have hbl : (utwords.ofAll b).low = b := by
    rw [ofAll_low]; exact Nat.mod_eq_of_lt hb
  have hal : a % 2 ^ 64 < 2 ^ 64 := Nat.mod_lt _ (by norm_num)
  have hah : a / 2 ^ 64 < 2 ^ 64 := by omega
  have hsplit : a / 2 ^ 64 * 2 ^ 64 + a % 2 ^ 64 = a := Nat.div_add_mod' _ _
  unfold MyDivMod1
  simp only [hbh, hbl, if_true, ofAll_high ha, ofAll_low]
  by_cases hlt : a / 2 ^ 64 < b
  · rw [if_pos hlt]
    simp only [Run.res_bind, Run.tell, ok_bind, PrimitiveDiv_res _ _ _ hb0 hb hlt hal, Run.res_pure,
      utwords.all, hsplit, Nat.zero_mul, Nat.zero_add]
  · rw [if_neg hlt]
    have h1 := PrimitiveDiv_res 0 (a / 2 ^ 64) b hb0 hb (by omega) hah
    have hr : a / 2 ^ 64 % b < b := Nat.mod_lt _ (by omega)
    have h0 := PrimitiveDiv_res (a / 2 ^ 64 % b) (a % 2 ^ 64) b hb0 hb hr hal
    simp only [Nat.zero_mul, Nat.zero_add] at h1
    simp only [Run.res_bind, Run.tell, ok_bind, h1, h0, Run.res_pure, utwords.all,
      Nat.zero_mul, Nat.zero_add]
    -- recombine the two quotient words
    have hd1 : a / 2 ^ 64 / b * b + a / 2 ^ 64 % b = a / 2 ^ 64 := Nat.div_add_mod' _ _
    generalize a / 2 ^ 64 / b = qh at hd1 ⊢
    generalize a / 2 ^ 64 % b = rh at hd1 hr ⊢
    have hd0 : (rh * 2 ^ 64 + a % 2 ^ 64) / b * b + (rh * 2 ^ 64 + a % 2 ^ 64) % b =
        rh * 2 ^ 64 + a % 2 ^ 64 := Nat.div_add_mod' _ _
    have hr0 : (rh * 2 ^ 64 + a % 2 ^ 64) % b < b := Nat.mod_lt _ (by omega)
    generalize (rh * 2 ^ 64 + a % 2 ^ 64) / b = ql at hd0 ⊢
    generalize (rh * 2 ^ 64 + a % 2 ^ 64) % b = rl at hd0 hr0 ⊢
    have h2 : b * (qh * 2 ^ 64 + ql) = qh * b * 2 ^ 64 + ql * b := by ring
    have h3 := (Nat.div_mod_unique (a := a) (c := rl) (d := qh * 2 ^ 64 + ql)
      (by omega : 0 < b)).2 ⟨by rw [h2]; omega, hr0⟩
    rw [h3.1, h3.2]

/-! ## `MyDivMod1`: the restoring-division loop -/

theorem lor_one_of_even (q : Nat) : 2 * q ||| 1 = 2 * q + 1 := by
  have h := Nat.mul_add_lt_is_or (i := 1) (b := 1) (by norm_num) q
  simpa using h.symm

/-- One pass through the body of the restoring-division loop. -/
theorem restoringLoop_succ_res (k : Nat) (st : LoopState) :
    (restoringLoop (k + 1) st).res =
      (restoringLoop k
        { dividend := if st.dividend.all ≥ st.divisor.all then
            utwords.ofAll (sub128 st.dividend.all st.divisor.all) else st.dividend,
          divisor := utwords.ofAll (st.divisor.all / 2),
          quotient :=
            { low := if st.dividend.all ≥ st.divisor.all then
                (st.quotient.low * 2 % 2 ^ 64) ||| 1 else st.quotient.low * 2 % 2 ^ 64,
              high := st.quotient.high } }).res := by
  have h1 : ((1 : Nat) : Int) = 1 := rfl
  rw [restoringLoop]
  simp only [Run.res_bind, Run.tell, ok_bind, ← h1, shl_res (show 1 < 64 by norm_num),
    shr_res (show 1 < 128 by norm_num), pow_one]
  by_cases h : st.dividend.all ≥ st.divisor.all
  · simp only [if_pos h]
  · simp only [if_neg h]

/-- Invariant of the restoring-division loop: with `k + 1` iterations left, the working divisor
is `b * 2 ^ k`, the accumulator `Q` (below `2 ^ j`) and the working remainder `R` satisfy
`a = Q * (b * 2 ^ (k + 1)) + R` and `R < b * 2 ^ (k + 1)`; the loop ends with `a = Q * b + R`
and `R < b`. -/
theorem restoringLoop_res (a b : Nat) : ∀ (k j : Nat) (st : LoopState),
    j + k + 1 ≤ 64 → st.quotient.low < 2 ^ j → st.divisor.all = b * 2 ^ k →
    b * 2 ^ k < 2 ^ 128 → st.dividend.all < 2 ^ 128 →
    a = st.quotient.low * (b * 2 ^ (k + 1)) + st.dividend.all →
    st.dividend.all < b * 2 ^ (k + 1) →
    ∃ st' : LoopState, (restoringLoop (k + 1) st).res = .ok st' ∧
      a = st'.quotient.low * b + st'.dividend.all ∧ st'.dividend.all < b ∧
      st'.quotient.low < 2 ^ (j + k + 1) ∧ st'.quotient.high = st.quotient.high := by
  intro k
  induction k with
  | zero =>
    intro j st hj hq hD hDlt hRlt ha hR
    rw [restoringLoop_succ_res]
    refine ⟨_, rfl, ?_⟩
    simp only [pow_zero, Nat.mul_one, Nat.zero_add, pow_one] at hD hDlt ha hR
    have hq64 : st.quotient.low * 2 < 2 ^ 64 := by
      have : (2 : Nat) ^ j * 2 ≤ 2 ^ 63 * 2 := by
        apply Nat.mul_le_mul_right
        exact Nat.pow_le_pow_right (by norm_num) (by omega)
      omega
    have hpow : (2 : Nat) ^ (j + 0 + 1) = 2 ^ j * 2 := by rw [Nat.add_zero, pow_succ]
    rw [Nat.mod_eq_of_lt hq64, Nat.mul_comm _ 2, lor_one_of_even, hpow]
    by_cases h : st.dividend.all ≥ st.divisor.all
    · simp only [if_pos h]
      have hsub : sub128 st.dividend.all st.divisor.all = st.dividend.all - st.divisor.all := by
        unfold sub128; omega
      rw [hsub, all_ofAll (by omega), hD]
      rw [hD] at h
      have h2 : (2 * st.quotient.low + 1) * b = st.quotient.low * (b * 2) + b := by ring
      refine ⟨by rw [h2]; omega, by omega, by omega, trivial⟩
    · simp only [if_neg h]
      rw [hD] at h
      have h2 : 2 * st.quotient.low * b = st.quotient.low * (b * 2) := by ring
      refine ⟨by rw [h2]; omega, by omega, by omega, trivial⟩
  | succ k ih =>
    intro j st hj hq hD hDlt hRlt ha hR
    rw [restoringLoop_succ_res]
    have hq64 : st.quotient.low * 2 < 2 ^ 64 := by
      have : (2 : Nat) ^ j * 2 ≤ 2 ^ 63 * 2 := by
        apply Nat.mul_le_mul_right
        exact Nat.pow_le_pow_right (by norm_num) (by omega)
      omega
    have hpj : (2 : Nat) ^ (j + 1) = 2 ^ j * 2 := pow_succ _ _
    have hpk : b * 2 ^ (k + 1) = b * 2 ^ k * 2 := by rw [pow_succ]; ring
    have hpk2 : b * 2 ^ (k + 1 + 1) = b * 2 ^ k * 4 := by rw [pow_succ, pow_succ]; ring
    have hidx : j + 1 + k + 1 = j + (k + 1) + 1 := by omega
    rw [hpk] at hD hDlt
    rw [hpk2] at ha hR
    rw [Nat.mod_eq_of_lt hq64, Nat.mul_comm _ 2, lor_one_of_even]
    have hdiv : st.divisor.all / 2 = b * 2 ^ k := by omega
    by_cases h : st.dividend.all ≥ st.divisor.all
    · simp only [if_pos h]
      have hsub : sub128 st.dividend.all st.divisor.all = st.dividend.all - st.divisor.all := by
        unfold sub128; omega
      rw [hsub]
      have h2 : (2 * st.quotient.low + 1) * (b * 2 ^ k * 2) =
          st.quotient.low * (b * 2 ^ k * 4) + b * 2 ^ k * 2 := by ring
      rw [← hidx]
      apply ih (j + 1)
      · omega
      · show 2 * st.quotient.low + 1 < _
        omega
      · show (utwords.ofAll (st.divisor.all / 2)).all = _
        rw [all_ofAll (by omega), hdiv]
      · omega
      · show (utwords.ofAll (st.dividend.all - st.divisor.all)).all < _
        rw [all_ofAll (by omega)]; omega
      · show a = (2 * st.quotient.low + 1) * (b * 2 ^ (k + 1)) +
          (utwords.ofAll (st.dividend.all - st.divisor.all)).all
        rw [all_ofAll (by omega), hpk, h2]; omega
      · show (utwords.ofAll (st.dividend.all - st.divisor.all)).all < _
        rw [all_ofAll (by omega), hpk]; omega
    · simp only [if_neg h]
      have h2 : 2 * st.quotient.low * (b * 2 ^ k * 2) = st.quotient.low * (b * 2 ^ k * 4) := by
        ring
      rw [← hidx]
      apply ih (j + 1)
      · omega
      · show 2 * st.quotient.low < _
        omega
      · show (utwords.ofAll (st.divisor.all / 2)).all = _
        rw [all_ofAll (by omega), hdiv]
      · omega
      · show st.dividend.all < _
        omega
      · show a = (2 * st.quotient.low) * (b * 2 ^ (k + 1)) + st.dividend.all
        rw [hpk, h2]; omega
      · show st.dividend.all < _
        rw [hpk]; omega

/-- A nonzero 64-bit high word `h` with `c` leading zeros bounds the 128-bit value:
`2 ^ 127 ≤ x * 2 ^ c < 2 ^ 128`. -/
theorem clz_high_bounds {x : Nat} (hx : x < 2 ^ 128) (hh : x / 2 ^ 64 ≠ 0) :
    2 ^ 127 ≤ x * 2 ^ clz64 (x / 2 ^ 64) ∧ x * 2 ^ clz64 (x / 2 ^ 64) < 2 ^ 128 := by
  obtain ⟨hs, h1, h2⟩ := clz64_spec hh (by omega)
  generalize clz64 (x / 2 ^ 64) = c at hs h1 h2 ⊢
  have hsplit : x / 2 ^ 64 * 2 ^ 64 + x % 2 ^ 64 = x := Nat.div_add_mod' _ _
  have hlow : x % 2 ^ 64 < 2 ^ 64 := Nat.mod_lt _ (by norm_num)
  generalize x / 2 ^ 64 = h at h1 h2 hsplit
  generalize x % 2 ^ 64 = l at hsplit hlow
  have hc : 0 < 2 ^ c := Nat.pow_pos (by norm_num)
  have hpow : (2 : Nat) ^ 64 = 2 ^ (64 - c) * 2 ^ c := by
    rw [← pow_add]; congr 1; omega
  -- `h + 1 ≤ 2 ^ (64 - c)`
  have hh1 : h < 2 ^ (64 - c) := by
    rw [hpow] at h2
    exact Nat.lt_of_mul_lt_mul_right h2
  have hh2 : (h + 1) * 2 ^ c ≤ 2 ^ 64 := by
    rw [hpow]; exact Nat.mul_le_mul_right _ hh1
  have e1 : x * 2 ^ c = h * 2 ^ c * 2 ^ 64 + l * 2 ^ c := by rw [← hsplit]; ring
  have e2 : l * 2 ^ c < 2 ^ 64 * 2 ^ c := Nat.mul_lt_mul_of_pos_right hlow hc
  have e3 : (h + 1) * 2 ^ c * 2 ^ 64 ≤ 2 ^ 64 * 2 ^ 64 := Nat.mul_le_mul_right _ hh2
  have e4 : (h + 1) * 2 ^ c * 2 ^ 64 = h * 2 ^ c * 2 ^ 64 + 2 ^ 64 * 2 ^ c := by ring
  have e5 : 2 ^ 63 * 2 ^ 64 ≤ h * 2 ^ c * 2 ^ 64 := Nat.mul_le_mul_right _ h1
  constructor
  · omega
  · omega

/-- The slow path of `MyDivMod1` when the dividend's high word is nonzero and has no more
leading zeros than the divisor's (`shift ≥ 0`): quotient and remainder. -/
theorem MyDivMod1_slow_res {a b : Nat} (ha : a < 2 ^ 128) (hb : b < 2 ^ 128)
    (hbh : b / 2 ^ 64 ≠ 0) (hah : a / 2 ^ 64 ≠ 0)
    (hclz : clz64 (a / 2 ^ 64) ≤ clz64 (b / 2 ^ 64)) :
    (MyDivMod1 a b).res = .ok (a / b, a % b) := by
  obtain ⟨ha1, ha2⟩ := clz_high_bounds ha hah
  obtain ⟨hb1, hb2⟩ := clz_high_bounds hb hbh
  obtain ⟨hsb, -, -⟩ := clz64_spec hbh (show b / 2 ^ 64 < 2 ^ 64 by omega)
  have hbpos : 0 < b := by
    rcases Nat.eq_zero_or_pos b with h | h
    · rw [h] at hbh; simp at hbh
    · exact h
  unfold MyDivMod1
  simp only [ofAll_high hb, ofAll_high ha, if_neg hbh, Run.res_bind, clzll_res hbh,
    clzll_res hah, ok_bind, all_ofAll hb]
  generalize clz64 (b / 2 ^ 64) = sb at *
  generalize clz64 (a / 2 ^ 64) = sa at *
  obtain ⟨k, rfl⟩ : ∃ k, sb = sa + k := ⟨sb - sa, by omega⟩
  have hshift : ((sa + k : Nat) : Int) - (sa : Int) = ((k : Nat) : Int) := by omega
  have hcount : (((k : Nat) : Int) + 1).toNat = k + 1 := by omega
  have hsa : 0 < 2 ^ sa := Nat.pow_pos (by norm_num)
  have hk : 0 < 2 ^ k := Nat.pow_pos (by norm_num)
  have hpow : b * 2 ^ (sa + k) = b * 2 ^ k * 2 ^ sa := by rw [pow_add]; ring
  rw [hpow] at hb1 hb2
  have hD : b * 2 ^ k < 2 ^ 128 := by
    have : b * 2 ^ k * 1 ≤ b * 2 ^ k * 2 ^ sa := Nat.mul_le_mul_left _ hsa
    omega
  have hR : a < b * 2 ^ (k + 1) := by
    by_contra hcon
    have h1 : b * 2 ^ (k + 1) * 2 ^ sa ≤ a * 2 ^ sa := Nat.mul_le_mul_right _ (by omega)
    have h2 : b * 2 ^ (k + 1) * 2 ^ sa = 2 * (b * 2 ^ k * 2 ^ sa) := by rw [pow_succ]; ring
    omega
  rw [hshift, hcount]
  simp only [shl_res (show k < 128 by omega), ok_bind, Nat.mod_eq_of_lt hD]
  obtain ⟨st, hst, h1, h2, -, h4⟩ := restoringLoop_res a b k 0
    { dividend := utwords.ofAll a, divisor := utwords.ofAll (b * 2 ^ k),
      quotient := { low := 0, high := 0 } }
    (by omega) (by show 0 < 2 ^ 0; norm_num) (by show (utwords.ofAll _).all = _; rw [all_ofAll hD])
    hD (by show (utwords.ofAll a).all < _; rw [all_ofAll ha]; exact ha)
    (by show a = 0 * _ + (utwords.ofAll a).all; rw [all_ofAll ha]; omega)
    (by show (utwords.ofAll a).all < _; rw [all_ofAll ha]; exact hR)
  have h4' : st.quotient.high = 0 := h4
  have hq : st.quotient.all = st.quotient.low := by
    unfold utwords.all; rw [h4']; omega
  have h3 := (Nat.div_mod_unique (a := a) (c := st.dividend.all) (d := st.quotient.low)
    hbpos).2 ⟨by rw [Nat.mul_comm]; omega, h2⟩
  simp only [hst, ok_bind, Run.res_pure, hq, h3.1, h3.2]

/-! ## Recorded calls -/

theorem callsOf_append (l1 l2 : List Op) : callsOf (l1 ++ l2) = callsOf l1 ++ callsOf l2 := by
  induction l1 with
  | nil => rfl
  | cons e l ih => cases e <;> simp [callsOf, ih]

theorem Run.log_bind_ok {α β : Type} {x : Run α} {a : α} (h : x.res = .ok a) (f : α → Run β) :
    (x >>= f).log = x.log ++ (f a).log := by
  show (Run.andThen x f).log = _
  unfold Run.andThen
  rw [h]

theorem noCalls_bind {α β : Type} {x : Run α} {f : α → Run β} (hx : callsOf x.log = [])
    (hf : ∀ a, callsOf (f a).log = []) : callsOf (x >>= f).log = [] := by
  show callsOf (Run.andThen x f).log = []
  unfold Run.andThen
  cases h : x.res with
  | error e => exact hx
  | ok a => simp only [callsOf_append, hx, hf a, List.append_nil]

theorem normalize_noCalls (u1 u0 v : Nat) : callsOf (normalize u1 u0 v).log = [] := by
  unfold normalize
  refine noCalls_bind rfl (fun s => ?_)
  split
  · exact noCalls_bind rfl fun _ => noCalls_bind rfl fun _ => noCalls_bind rfl fun _ =>
      noCalls_bind rfl fun _ => rfl
  · rfl

theorem digits_noCalls (s : Int) (v un64 un10 : Nat) :
    callsOf (digits s v un64 un10).log = [] := by
  unfold digits
  exact noCalls_bind rfl fun _ => noCalls_bind rfl fun _ => noCalls_bind rfl fun _ =>
    noCalls_bind rfl fun _ => noCalls_bind rfl fun _ => rfl

/-- A run of `PrimitiveDiv` records no call of `PrimitiveDiv`. -/
theorem PrimitiveDiv_noCalls (u1 u0 v : Nat) : callsOf (PrimitiveDiv u1 u0 v).log = [] := by
  unfold PrimitiveDiv divlu
  split
  · rfl
  · exact noCalls_bind (noCalls_bind (normalize_noCalls _ _ _) fun _ => digits_noCalls _ _ _ _)
      fun _ => rfl

/-! ## `MyDivMod1`: where it is defined, and where it is not -/

/-- More leading zeros means a smaller value: `clz64` is antitone on nonzero 64-bit values. -/
theorem clz64_anti {x y : Nat} (hx : x ≠ 0) (hxy : x ≤ y) (hy : y < 2 ^ 64) :
    clz64 y ≤ clz64 x := by
  obtain ⟨-, hx1, -⟩ := clz64_spec hx (by omega)
  obtain ⟨-, -, hy2⟩ := clz64_spec (show y ≠ 0 by omega) hy
  by_contra hcon
  have h1 : x * 2 ^ (clz64 x + 1) ≤ y * 2 ^ clz64 y :=
    Nat.mul_le_mul hxy (Nat.pow_le_pow_right (by norm_num) (by omega))
  rw [pow_succ] at h1
  have h2 : x * (2 ^ clz64 x * 2) = 2 * (x * 2 ^ clz64 x) := by ring
  omega

/-- `MyDivMod1` returns the quotient and the remainder whenever the divisor is nonzero and
either fits in 64 bits or has a high word with at least as many leading zeros as the
dividend's nonzero high word. -/
theorem MyDivMod1_res {a b : Nat} (ha : a < 2 ^ 128) (hb : b < 2 ^ 128) (hb0 : b ≠ 0)
    (h : b / 2 ^ 64 = 0 ∨ (a / 2 ^ 64 ≠ 0 ∧ clz64 (a / 2 ^ 64) ≤ clz64 (b / 2 ^ 64))) :
    (MyDivMod1 a b).res = .ok (a / b, a % b) := by
  by_cases hbh : b / 2 ^ 64 = 0
  · exact MyDivMod1_fast_res ha hb0 (by omega)
  · rcases h with h | ⟨h1, h2⟩
    · exact absurd h hbh
    · exact MyDivMod1_slow_res ha hb hbh h1 h2

/-- `MyDivMod1` returns the quotient and the remainder whenever the dividend is not below the
nonzero divisor. -/
theorem MyDivMod1_res_of_le {a b : Nat} (ha : a < 2 ^ 128) (hb0 : b ≠ 0) (hba : b ≤ a) :
    (MyDivMod1 a b).res = .ok (a / b, a % b) := by
  apply MyDivMod1_res ha (by omega) hb0
  by_cases hbh : b / 2 ^ 64 = 0
  · exact Or.inl hbh
  · have hle : b / 2 ^ 64 ≤ a / 2 ^ 64 := Nat.div_le_div_right hba
    exact Or.inr ⟨by omega, clz64_anti hbh hle (by omega)⟩

/-- On the slow path a dividend whose high word is zero makes `MyDivMod1` evaluate
`__builtin_clzll(0)`. -/
theorem MyDivMod1_clz_zero {a b : Nat} (ha : a < 2 ^ 128) (hb : b < 2 ^ 128)
    (hbh : b / 2 ^ 64 ≠ 0) (hah : a / 2 ^ 64 = 0) :
    MyDivMod1 a b = ⟨[.clz (b / 2 ^ 64), .clz 0], .error .clzOfZero⟩ := by
  unfold MyDivMod1
  simp only [ofAll_high hb, ofAll_high ha, if_neg hbh, hah]
  show Run.andThen (clzll (b / 2 ^ 64)) _ = _
  unfold Run.andThen
  rw [clzll_res hbh]
  rfl

/-- On the slow path a dividend whose nonzero high word has more leading zeros than the
divisor's makes `MyDivMod1` shift the divisor by a negative count. -/
theorem MyDivMod1_negative_shift {a b : Nat} (ha : a < 2 ^ 128) (hb : b < 2 ^ 128)
    (hbh : b / 2 ^ 64 ≠ 0) (hah : a / 2 ^ 64 ≠ 0)
    (hclz : clz64 (b / 2 ^ 64) < clz64 (a / 2 ^ 64)) :
    (MyDivMod1 a b).res = .error .shiftCount := by
  unfold MyDivMod1
  simp only [ofAll_high hb, ofAll_high ha, if_neg hbh, Run.res_bind, clzll_res hbh,
    clzll_res hah, ok_bind]
  have h : ¬ ((0 : Int) ≤ (clz64 (b / 2 ^ 64) : Int) - (clz64 (a / 2 ^ 64) : Int) ∧
      (clz64 (b / 2 ^ 64) : Int) - (clz64 (a / 2 ^ 64) : Int) < ((128 : Nat) : Int)) := by
    omega
  simp only [shl, if_neg h]
  rfl

/-- The `PrimitiveDiv` calls made on the fast path of `MyDivMod1`. -/
theorem MyDivMod1_fast_calls {a b : Nat} (ha : a < 2 ^ 128) (hb0 : b ≠ 0) (hb : b < 2 ^ 64) :
    (a / 2 ^ 64 < b → callsOf (MyDivMod1 a b).log = [(a / 2 ^ 64, a % 2 ^ 64, b)]) ∧
    (b ≤ a / 2 ^ 64 →
      callsOf (MyDivMod1 a b).log = [(0, a / 2 ^ 64, b), (a / 2 ^ 64 % b, a % 2 ^ 64, b)]) := by
  have hbh : (utwords.ofAll b).high = 0 := by
    rw [ofAll_high (by omega)]; exact Nat.div_eq_of_lt hb
  have hbl : (utwords.ofAll b).low = b := by
    rw [ofAll_low]; exact Nat.mod_eq_of_lt hb
  have hal : a % 2 ^ 64 < 2 ^ 64 := Nat.mod_lt _ (by norm_num)
  have hah : a / 2 ^ 64 < 2 ^ 64 := by omega
  have htell : ∀ e : Op, (Run.tell e).res = .ok () := fun _ => rfl
  constructor
  · intro hlt
    unfold MyDivMod1
    simp only [hbh, hbl, if_true, ofAll_high ha, ofAll_low, if_pos hlt]
    rw [Run.log_bind_ok (htell _), Run.log_bind_ok (PrimitiveDiv_res _ _ _ hb0 hb hlt hal)]
    simp only [callsOf_append, PrimitiveDiv_noCalls]
    rfl
  · intro hge
    have h1 := PrimitiveDiv_res 0 (a / 2 ^ 64) b hb0 hb (by omega) hah
    have hr : a / 2 ^ 64 % b < b := Nat.mod_lt _ (by omega)
    have h0 := PrimitiveDiv_res (a / 2 ^ 64 % b) (a % 2 ^ 64) b hb0 hb hr hal
    simp only [Nat.zero_mul, Nat.zero_add] at h1
    unfold MyDivMod1
    simp only [hbh, hbl, if_true, ofAll_high ha, ofAll_low, if_neg (show ¬ a / 2 ^ 64 < b by omega)]
    rw [Run.log_bind_ok (htell _), Run.log_bind_ok h1, Run.log_bind_ok (htell _),
      Run.log_bind_ok h0]
    simp only [callsOf_append, PrimitiveDiv_noCalls]
    rfl

/-- With a zero divisor `MyDivMod1` takes the fast path, both calls of `PrimitiveDiv` return the
overflow sentinel, and no leading-zero count, shift or division is evaluated. -/
theorem MyDivMod1_zero_divisor (a : Nat) :
    MyDivMod1 a 0 =
      ⟨[.call 0 (a / 2 ^ 64 % 2 ^ 64) 0, .call (2 ^ 64 - 1) (a % 2 ^ 64) 0],
        .ok (2 ^ 128 - 1, 2 ^ 64 - 1)⟩ := by
  have h0 : (utwords.ofAll 0).high = 0 := rfl
  have h1 : (utwords.ofAll 0).low = 0 := rfl
  have h2 : ∀ x : Nat, PrimitiveDiv x (utwords.ofAll a).low 0 =
      ⟨[], .ok (2 ^ 64 - 1, 2 ^ 64 - 1)⟩ := by
    intro x; unfold PrimitiveDiv; rw [if_pos (Nat.zero_le x)]; rfl
  have h3 : PrimitiveDiv 0 (utwords.ofAll a).high 0 = ⟨[], .ok (2 ^ 64 - 1, 2 ^ 64 - 1)⟩ := by
    unfold PrimitiveDiv; rw [if_pos (Nat.le_refl 0)]; rfl
  unfold MyDivMod1
  simp only [h0, h1, if_true, if_neg (Nat.not_lt_zero _), h2, h3]
  rfl

/-! ## The operators -/

/-- The quotient operator returns the floor quotient whenever `MyDivMod1` is defined. -/
theorem operatorDiv_res {a b : Nat} (ha : a < 2 ^ 128) (hb : b < 2 ^ 128) (hb0 : b ≠ 0)
    (h : b / 2 ^ 64 = 0 ∨ (a / 2 ^ 64 ≠ 0 ∧ clz64 (a / 2 ^ 64) ≤ clz64 (b / 2 ^ 64))) :
    (operatorDiv a b).res = .ok (a / b) := by
  have hA : (utwords.ofAll a).all = a := all_ofAll ha
  have hB : (utwords.ofAll b).all = b := all_ofAll hb
  have hq : a / b < 2 ^ 128 := lt_of_le_of_lt (Nat.div_le_self _ _) ha
  have hmk : MakeUint128 (utwords.ofAll (a / b)).high (utwords.ofAll (a / b)).low = a / b := by
    show a / b / 2 ^ 64 % 2 ^ 64 % 2 ^ 64 * 2 ^ 64 + a / b % 2 ^ 64 % 2 ^ 64 = a / b
    generalize a / b = q at hq ⊢
    omega
  unfold operatorDiv
  have e1 : ({ low := Uint128Low64 a, high := Uint128High64 a } : utwords) = utwords.ofAll a :=
    rfl
  have e2 : ({ low := Uint128Low64 b, high := Uint128High64 b } : utwords) = utwords.ofAll b :=
    rfl
  simp only [e1, e2, hA, hB, Run.res_bind, MyDivMod1_res ha hb hb0 h, ok_bind, Run.res_pure, hmk]

/-- The remainder operator returns the remainder whenever `MyDivMod1` is defined. -/
theorem operatorMod_res {a b : Nat} (ha : a < 2 ^ 128) (hb : b < 2 ^ 128) (hb0 : b ≠ 0)
    (h : b / 2 ^ 64 = 0 ∨ (a / 2 ^ 64 ≠ 0 ∧ clz64 (a / 2 ^ 64) ≤ clz64 (b / 2 ^ 64))) :
    (operatorMod a b).res = .ok (a % b) := by
  have hA : (utwords.ofAll a).all = a := all_ofAll ha
  have hB : (utwords.ofAll b).all = b := all_ofAll hb
  have hq : a % b < 2 ^ 128 := lt_of_le_of_lt (Nat.mod_le _ _) ha
  have hmk : MakeUint128 (utwords.ofAll (a % b)).high (utwords.ofAll (a % b)).low = a % b := by
    show a % b / 2 ^ 64 % 2 ^ 64 % 2 ^ 64 * 2 ^ 64 + a % b % 2 ^ 64 % 2 ^ 64 = a % b
    generalize a % b = r at hq ⊢
    omega
  unfold operatorMod
  have e1 : ({ low := Uint128Low64 a, high := Uint128High64 a } : utwords) = utwords.ofAll a :=
    rfl
  have e2 : ({ low := Uint128Low64 b, high := Uint128High64 b } : utwords) = utwords.ofAll b :=
    rfl
  simp only [e1, e2, hA, hB, Run.res_bind, MyDivMod1_res ha hb hb0 h, ok_bind, Run.res_pure, hmk]

/-- The vector of the specification for a divisor that fits in 64 bits:
`2 ^ 64 / 3 = 6148914691236517205` with remainder `1`. -/
theorem MyDivMod1_vector_fast :
    (MyDivMod1 (2 ^ 64) 3).res = .ok (6148914691236517205, 1) :=
  MyDivMod1_res (by norm_num) (by norm_num) (by norm_num) (Or.inl (by norm_num))

/-! ## The digit-correction loop: number of passes and tested states -/

/-- With a normalised divisor (`vn1 ≥ 2 ^ 31`) the body of the digit-correction loop runs at
most twice: each pass adds `vn1` to `rhat`, and the loop is left once `rhat ≥ 2 ^ 32`. -/
theorem correct_iters_le {vn1 : Nat} (vn0 un q : Nat) {rhat : Nat} (n : Nat)
    (hvn1 : 2 ^ 31 ≤ vn1) (hvn1lt : vn1 < 2 ^ 32) (hr : rhat < 2 ^ 32) :
    (correct vn1 vn0 un q rhat n).2.2 ≤ n + 2 := by
  have hb : b = 2 ^ 32 := rfl
  rw [correct]
  split
  · have h1 : add64 rhat vn1 = rhat + vn1 := add64_of_lt (by omega)
    rw [h1]
    split
    · show n + 1 ≤ n + 2
      omega
    · rename_i hnb
      rw [hb] at hnb
      rw [correct]
      split
      · have h2 : add64 (rhat + vn1) vn1 = rhat + vn1 + vn1 := add64_of_lt (by omega)
        rw [h2]
        have h3 : rhat + vn1 + vn1 ≥ b := by rw [hb]; omega
        rw [if_pos h3]
      · show n + 1 ≤ n + 2
        omega
  · show n ≤ n + 2
    omega

/-- The body of the digit-correction loop runs once for each evaluation of its condition that
holds: `correctTests` lists the states of the loop of `correct`. -/
theorem correct_iters_eq (vn1 vn0 un : Nat) : ∀ q rhat n : Nat,
    (correct vn1 vn0 un q rhat n).2.2 = n +
      ((correctTests vn1 vn0 un q rhat).filter fun t =>
        decide (t.1 ≥ b ∨ mul64 t.1 vn0 > add64 (mul64 b t.2) un)).length := by
  intro q
  induction q using Nat.strong_induction_on with
  | _ q ih =>
    intro rhat n
    rw [correct, correctTests]
    by_cases hc : q ≥ b ∨ mul64 q vn0 > add64 (mul64 b rhat) un
    · have hq : q ≠ 0 := by
        rintro rfl
        rcases hc with h | h
        · exact absurd h (by decide)
        · have h0 : mul64 0 vn0 = 0 := by unfold mul64; rw [Nat.zero_mul]; rfl
          rw [h0] at h
          exact absurd h (Nat.not_lt_zero _)
      have hdec : sub64 q 1 < q := by
        unfold sub64; omega
      have hp : (fun t : Nat × Nat =>
          decide (t.1 ≥ b ∨ mul64 t.1 vn0 > add64 (mul64 b t.2) un)) (q, rhat) = true :=
        decide_eq_true hc
      rw [if_pos hc, if_pos hc]
      by_cases hbr : add64 rhat vn1 ≥ b
      · rw [if_pos hbr, if_pos hbr, List.filter_cons_of_pos (p := fun t : Nat × Nat =>
          decide (t.1 ≥ b ∨ mul64 t.1 vn0 > add64 (mul64 b t.2) un)) hp]
        rfl
      · rw [if_neg hbr, if_neg hbr, ih _ hdec, List.filter_cons_of_pos (p := fun t : Nat × Nat =>
          decide (t.1 ≥ b ∨ mul64 t.1 vn0 > add64 (mul64 b t.2) un)) hp, List.length_cons]
        omega
    · have hp : ¬ (fun t : Nat × Nat =>
          decide (t.1 ≥ b ∨ mul64 t.1 vn0 > add64 (mul64 b t.2) un)) (q, rhat) = true := by
        intro h
        exact hc (of_decide_eq_true h)
      rw [if_neg hc, if_neg hc, List.filter_cons_of_neg (p := fun t : Nat × Nat =>
          decide (t.1 ≥ b ∨ mul64 t.1 vn0 > add64 (mul64 b t.2) un)) hp]
      rfl

/-- Every evaluation of the condition of the digit-correction loop sees a quotient digit not
above the first estimate, a trial remainder below `2 ^ 32`, and `q * vn1 + rhat = hi`. -/
theorem correctTests_inv {vn1 : Nat} (vn0 un : Nat) {hi : Nat} (hvn1 : 0 < vn1) (hvn1lt : vn1 < 2 ^ 32)
    (hhi : hi < 2 ^ 64) :
    ∀ q rhat : Nat, q * vn1 + rhat = hi → rhat < 2 ^ 32 →
      ∀ t ∈ correctTests vn1 vn0 un q rhat, t.1 ≤ q ∧ t.2 < 2 ^ 32 ∧ t.1 * vn1 + t.2 = hi := by
  intro q
  induction q using Nat.strong_induction_on with
  | _ q ih =>
    intro rhat hq hr t ht
    rw [correctTests] at ht
    by_cases hc : q ≥ b ∨ mul64 q vn0 > add64 (mul64 b rhat) un
    · rw [if_pos hc] at ht
      by_cases hbr : add64 rhat vn1 ≥ b
      · rw [if_pos hbr, List.mem_singleton] at ht
        subst ht
        exact ⟨le_refl _, hr, hq⟩
      · rw [if_neg hbr, List.mem_cons] at ht
        rcases ht with rfl | ht
        · exact ⟨le_refl _, hr, hq⟩
        · have hq0 : q ≠ 0 := by
            rintro rfl
            rcases hc with h | h
            · exact absurd h (by decide)
            · simp [mul64] at h
          have hq64 : q < 2 ^ 64 := by
            have h1 : q * 1 ≤ q * vn1 := Nat.mul_le_mul_left _ hvn1
            omega
          have hsub : sub64 q 1 = q - 1 := by unfold sub64; omega
          have hadd : add64 rhat vn1 = rhat + vn1 := add64_of_lt (by omega)
          have hb : rhat + vn1 < 2 ^ 32 := by
            rw [hadd] at hbr
            have : ¬ (2:Nat) ^ 32 ≤ rhat + vn1 := hbr
            omega
          have hq1 : (q - 1) * vn1 + (rhat + vn1) = hi := by
            have h1 : (q - 1) * vn1 = q * vn1 - 1 * vn1 := Nat.sub_mul q 1 vn1
            have h2 : vn1 ≤ q * vn1 := Nat.le_mul_of_pos_left vn1 (by omega)
            omega
          rw [hsub, hadd] at ht
          obtain ⟨h1, h2, h3⟩ := ih (q - 1) (by omega) (rhat + vn1) hq1 hb t ht
          exact ⟨by omega, h2, h3⟩
    · rw [if_neg hc, List.mem_singleton] at ht
      subst ht
      exact ⟨le_refl _, hr, hq⟩

/-! ## Whole runs of `PrimitiveDiv` -/

theorem Run.bind_mk_ok {α β : Type} (l : List Op) (a : α) (f : α → Run β) :
    ((⟨l, .ok a⟩ : Run α) >>= f) = ⟨l ++ (f a).log, (f a).res⟩ := rfl

theorem Run.pure_eq {α : Type} (a : α) : (pure a : Run α) = ⟨[], .ok a⟩ := rfl

theorem shr_eq {w x : Nat} {k : Nat} (h : k < w) :
    shr w x (k : Int) = ⟨[.shr w x k], .ok (x / 2 ^ k)⟩ := by
  have h1 : (0 : Int) ≤ (k : Int) ∧ (k : Int) < (w : Int) := ⟨by omega, by omega⟩
  simp only [shr, if_pos h1, Int.toNat_ofNat, Nat.shiftRight_eq_div_pow]

theorem shl_eq {w x : Nat} {k : Nat} (h : k < w) :
    shl w x (k : Int) = ⟨[.shl w x k], .ok (x * 2 ^ k % 2 ^ w)⟩ := by
  have h1 : (0 : Int) ≤ (k : Int) ∧ (k : Int) < (w : Int) := ⟨by omega, by omega⟩
  simp only [shl, if_pos h1, Int.toNat_ofNat, Nat.shiftLeft_eq]

theorem udiv_eq {x y : Nat} (h : y ≠ 0) : udiv x y = ⟨[.div x y], .ok (x / y)⟩ := by
  simp only [udiv, if_neg h]

theorem clzll_eq {x : Nat} (h : x ≠ 0) : clzll x = ⟨[.clz x], .ok (clz64 x : Int)⟩ := by
  simp only [clzll, if_neg h]

/-- The whole run of lines 41-58 on valid operands. -/
theorem normalize_run {u1 u0 v : Nat} (hv0 : v ≠ 0) (hv : v < 2 ^ 64) (hu1 : u1 < v)
    (hu0 : u0 < 2 ^ 64) :
    normalize u1 u0 v =
      ⟨if clz64 v = 0 then [.clz v]
        else [.clz v, .shl 64 v (clz64 v), .shl 64 u1 (clz64 v),
          .shr 64 u0 (64 - (clz64 v : Int)), .shl 64 u0 (clz64 v)],
       .ok ((clz64 v : Int), v * 2 ^ clz64 v,
        u1 * 2 ^ clz64 v + u0 / 2 ^ (64 - clz64 v), u0 * 2 ^ clz64 v % 2 ^ 64)⟩ := by
  obtain ⟨hs, hV1, hV2⟩ := clz64_spec hv0 hv
  unfold normalize
  rw [clzll_eq hv0, Run.bind_mk_ok]
  generalize clz64 v = s at hs hV1 hV2 ⊢
  rcases Nat.eq_zero_or_pos s with rfl | hpos
  · have h : ¬ ((0 : Nat) : Int) > 0 := by simp
    have h1 : u0 / 2 ^ 64 = 0 := Nat.div_eq_of_lt hu0
    simp only [if_neg h, Run.pure_eq, pow_zero, Nat.mul_one, Nat.sub_zero, h1, Nat.add_zero,
      Nat.mod_eq_of_lt hu0, if_true, List.append_nil]
  · have h : (s : Int) > 0 := by omega
    have hne : s ≠ 0 := by omega
    have hsub : (64 : Int) - (s : Int) = ((64 - s : Nat) : Int) := by omega
    have h2s : 0 < 2 ^ s := Nat.pow_pos (by norm_num)
    have hu1s : u1 * 2 ^ s < 2 ^ 64 := by
      have : u1 * 2 ^ s ≤ v * 2 ^ s := Nat.mul_le_mul_right _ (by omega)
      omega
    have hlo : u0 / 2 ^ (64 - s) < 2 ^ s := by
      apply (Nat.div_lt_iff_lt_mul (Nat.pow_pos (by norm_num))).2
      rw [← pow_add]
      have : s + (64 - s) = 64 := by omega
      rw [this]; exact hu0
    have hor : u1 * 2 ^ s ||| u0 / 2 ^ (64 - s) = u1 * 2 ^ s + u0 / 2 ^ (64 - s) := by
      rw [Nat.mul_comm u1, Nat.mul_add_lt_is_or hlo]
    rw [if_pos h, if_neg hne]
    simp only [shl_eq hs, Run.bind_mk_ok, hsub, shr_eq (show 64 - s < 64 by omega),
      Run.pure_eq, Nat.mod_eq_of_lt hV2, Nat.mod_eq_of_lt hu1s, hor, List.cons_append,
      List.nil_append, List.append_nil]

/-- The whole run of lines 60-93 on normalised operands: the divisions and shifts evaluated,
and the locals with the exact quotient digits and partial remainders. -/
theorem digits_run {s V un64 un10 : Nat} (hs : s < 64) (hV1 : 2 ^ 63 ≤ V) (hV2 : V < 2 ^ 64)
    (hun64 : un64 < V) (hun10 : un10 < 2 ^ 64) :
    ∃ l : Locals, (digits s V un64 un10).res = .ok l ∧
      (digits s V un64 un10).log =
        [.shr 64 V 32, .shr 64 un10 32, .div un64 l.vn1, .div l.un21 l.vn1,
          .shr 64 ((l.un21 * 2 ^ 32 + l.un0) % V) s] ∧
      l.s = s ∧ l.v = V ∧ l.un64 = un64 ∧ l.un10 = un10 ∧
      l.vn1 = V / 2 ^ 32 ∧ l.vn0 = V % 2 ^ 32 ∧
      l.un1 = un10 / 2 ^ 32 ∧ l.un0 = un10 % 2 ^ 32 ∧
      l.q1est = un64 / l.vn1 ∧
      l.q1 = (un64 * 2 ^ 32 + l.un1) / V ∧
      l.un21 = (un64 * 2 ^ 32 + l.un1) % V ∧
      l.q0est = l.un21 / l.vn1 ∧
      l.q0 = (l.un21 * 2 ^ 32 + l.un0) / V ∧
      l.r = (l.un21 * 2 ^ 32 + l.un0) % V / 2 ^ s ∧
      l.iters1 = (correct l.vn1 l.vn0 l.un1 l.q1est
        (sub64 l.un64 (mul64 l.q1est l.vn1)) 0).2.2 ∧
      l.iters0 = (correct l.vn1 l.vn0 l.un0 l.q0est
        (sub64 l.un21 (mul64 l.q0est l.vn1)) 0).2.2 ∧
      l.un21 = sub64 (add64 (mul64 l.un64 b) l.un1) (mul64 l.q1 l.v) ∧
      (l.un21 * 2 ^ 32 + l.un0) % V = sub64 (add64 (mul64 l.un21 b) l.un0) (mul64 l.q0 l.v) := by
  have hvn1 : V / 2 ^ 32 ≠ 0 := by omega
  have h32 : (32 : Int) = ((32 : Nat) : Int) := rfl
  have hand : ∀ x : Nat, x &&& 0xFFFFFFFF = x % 2 ^ 32 := fun x =>
    Nat.and_pow_two_sub_one_eq_mod x 32
  obtain ⟨hq1, hun21⟩ := digit_step hV1 hV2 hun64 (show un10 / 2 ^ 32 < 2 ^ 32 by omega)
  have hR1 : (un64 * 2 ^ 32 + un10 / 2 ^ 32) % V < V := Nat.mod_lt _ (by omega)
  obtain ⟨hq0, hr⟩ := digit_step hV1 hV2 hR1 (show un10 % 2 ^ 32 < 2 ^ 32 by omega)
  simp only [digits, h32, shr_eq (show 32 < 64 by norm_num), Run.bind_mk_ok, hand,
    udiv_eq hvn1, hq1, hun21, hq0, hr, shr_eq hs, Run.pure_eq, List.cons_append,
    List.nil_append, List.append_nil]
  exact ⟨_, rfl, rfl, rfl, rfl, rfl, rfl, rfl, rfl, rfl, rfl, rfl, rfl, rfl, rfl, rfl, rfl, rfl,
    rfl, hun21.symm, hr.symm⟩

/-- The locals and the record of `PrimitiveDiv` past the overflow test, on valid operands
(`v ≠ 0`, `u1 < v`): normalisation, exact quotient digits, partial remainders, loop counts. -/
theorem divlu_spec (u1 u0 v : Nat) (hv0 : v ≠ 0) (hv : v < 2 ^ 64) (hu1 : u1 < v)
    (hu0 : u0 < 2 ^ 64) :
    ∃ l : Locals, (divlu u1 u0 v).res = .ok l ∧
      (divlu u1 u0 v).log =
        (if clz64 v = 0 then [.clz v]
          else [.clz v, .shl 64 v (clz64 v), .shl 64 u1 (clz64 v),
            .shr 64 u0 (64 - (clz64 v : Int)), .shl 64 u0 (clz64 v)]) ++
        [.shr 64 l.v 32, .shr 64 l.un10 32, .div l.un64 l.vn1, .div l.un21 l.vn1,
          .shr 64 (sub64 (add64 (mul64 l.un21 b) l.un0) (mul64 l.q0 l.v)) (clz64 v)] ∧
      (l.s = clz64 v ∧ clz64 v < 64 ∧ l.v = v * 2 ^ clz64 v ∧ 2 ^ 63 ≤ l.v ∧ l.v < 2 ^ 64 ∧
        u1 * 2 ^ clz64 v < 2 ^ 64 ∧
        l.un64 = u1 * 2 ^ clz64 v + u0 / 2 ^ (64 - clz64 v) ∧ l.un64 < l.v ∧
        l.un10 = u0 * 2 ^ clz64 v % 2 ^ 64 ∧
        l.un64 * 2 ^ 64 + l.un10 = (u1 * 2 ^ 64 + u0) * 2 ^ clz64 v) ∧
      (l.vn1 = l.v / 2 ^ 32 ∧ l.vn0 = l.v % 2 ^ 32 ∧
        l.un1 = l.un10 / 2 ^ 32 ∧ l.un0 = l.un10 % 2 ^ 32) ∧
      (l.q1est = l.un64 / l.vn1 ∧
        l.q1 = (l.un64 * 2 ^ 32 + l.un1) / l.v ∧
        l.un21 = (l.un64 * 2 ^ 32 + l.un1) % l.v ∧
        l.un21 = sub64 (add64 (mul64 l.un64 b) l.un1) (mul64 l.q1 l.v) ∧
        l.iters1 = (correct l.vn1 l.vn0 l.un1 l.q1est
          (sub64 l.un64 (mul64 l.q1est l.vn1)) 0).2.2) ∧
      (l.q0est = l.un21 / l.vn1 ∧
        l.q0 = (l.un21 * 2 ^ 32 + l.un0) / l.v ∧
        sub64 (add64 (mul64 l.un21 b) l.un0) (mul64 l.q0 l.v) =
          (l.un21 * 2 ^ 32 + l.un0) % l.v ∧
        l.r = (l.un21 * 2 ^ 32 + l.un0) % l.v / 2 ^ clz64 v ∧
        l.iters0 = (correct l.vn1 l.vn0 l.un0 l.q0est
          (sub64 l.un21 (mul64 l.q0est l.vn1)) 0).2.2) := by
  obtain ⟨hs, hV1, hV2⟩ := clz64_spec hv0 hv
  have hnorm := normalize_run hv0 hv hu1 hu0
  have h2s : 0 < 2 ^ clz64 v := Nat.pow_pos (by norm_num)
  have hu1s : u1 * 2 ^ clz64 v < 2 ^ 64 := by
    have : u1 * 2 ^ clz64 v ≤ v * 2 ^ clz64 v := Nat.mul_le_mul_right _ (by omega)
    omega
  -- the shifted dividend
  have hsplit : (u0 / 2 ^ (64 - clz64 v)) * 2 ^ 64 + u0 * 2 ^ clz64 v % 2 ^ 64 =
      u0 * 2 ^ clz64 v := by
    have h64 : (2 : Nat) ^ 64 = 2 ^ (64 - clz64 v) * 2 ^ clz64 v := by
      rw [← pow_add]; congr 1; omega
    have h1 : u0 * 2 ^ clz64 v / 2 ^ 64 = u0 / 2 ^ (64 - clz64 v) := by
      rw [h64]; exact Nat.mul_div_mul_right _ _ h2s
    rw [← h1]; exact Nat.div_add_mod' _ _
  have hU : (u1 * 2 ^ clz64 v + u0 / 2 ^ (64 - clz64 v)) * 2 ^ 64 +
      u0 * 2 ^ clz64 v % 2 ^ 64 = (u1 * 2 ^ 64 + u0) * 2 ^ clz64 v := by
    have : (u1 * 2 ^ clz64 v + u0 / 2 ^ (64 - clz64 v)) * 2 ^ 64 =
        u1 * 2 ^ 64 * 2 ^ clz64 v + u0 / 2 ^ (64 - clz64 v) * 2 ^ 64 := by ring
    rw [this, Nat.add_mul, ← hsplit]; omega
  have hun10 : u0 * 2 ^ clz64 v % 2 ^ 64 < 2 ^ 64 := Nat.mod_lt _ (by norm_num)
  have hun64 : u1 * 2 ^ clz64 v + u0 / 2 ^ (64 - clz64 v) < v * 2 ^ clz64 v := by
    have h1 : (u1 * 2 ^ 64 + u0) * 2 ^ clz64 v < v * 2 ^ 64 * 2 ^ clz64 v := by
      apply Nat.mul_lt_mul_of_pos_right _ h2s
      have : (u1 + 1) * 2 ^ 64 ≤ v * 2 ^ 64 := Nat.mul_le_mul_right _ hu1
      omega
    have h2 : v * 2 ^ 64 * 2 ^ clz64 v = v * 2 ^ clz64 v * 2 ^ 64 := by ring
    by_contra hcon
    have h3 : v * 2 ^ clz64 v * 2 ^ 64 ≤
        (u1 * 2 ^ clz64 v + u0 / 2 ^ (64 - clz64 v)) * 2 ^ 64 :=
      Nat.mul_le_mul_right _ (by omega)
    omega
  obtain ⟨l, hl, hlog, e1, e2, e3, e4, e5, e6, e7, e8, e9, e10, e11, e12, e13, e14, e15, e16,
    e17, e18⟩ := digits_run hs hV1 hV2 hun64 hun10
  have hres : (divlu u1 u0 v).res = .ok l := by
    unfold divlu
    rw [hnorm, Run.bind_mk_ok]
    exact hl
  have hlog2 : (divlu u1 u0 v).log =
      (if clz64 v = 0 then [.clz v]
        else [.clz v, .shl 64 v (clz64 v), .shl 64 u1 (clz64 v),
          .shr 64 u0 (64 - (clz64 v : Int)), .shl 64 u0 (clz64 v)]) ++
      (digits (clz64 v) (v * 2 ^ clz64 v) (u1 * 2 ^ clz64 v + u0 / 2 ^ (64 - clz64 v))
        (u0 * 2 ^ clz64 v % 2 ^ 64)).log := by
    unfold divlu
    rw [hnorm, Run.bind_mk_ok]
  rw [hlog] at hlog2
  rw [← e2] at hV1 hV2 hun64 hlog2 e5 e6 e10 e11 e13 e14 e18
  rw [← e3] at hun64 hlog2 e9 e10 e11 hU
  rw [← e4] at hlog2 e7 e8 hU
  rw [e18] at hlog2
  exact ⟨l, hres, hlog2, ⟨e1, hs, e2, hV1, hV2, hu1s, e3, hun64, e4, hU⟩, ⟨e5, e6, e7, e8⟩,
    ⟨e9, e10, e11, e17, e15⟩, ⟨e12, e13, e18.symm, e14, e16⟩⟩

/-! ## Loop heads of the restoring-division loop -/

theorem itersOf_append (l1 l2 : List Op) : itersOf (l1 ++ l2) = itersOf l1 ++ itersOf l2 := by
  induction l1 with
  | nil => rfl
  | cons e l ih => cases e <;> simp [itersOf, ih]

/-- The record of one pass through the body of the restoring-division loop: the loop-head
event, the shift of the accumulator and the shift of the working divisor, then the record of
the remaining passes. -/
theorem restoringLoop_succ_log (k : Nat) (st : LoopState) :
    (restoringLoop (k + 1) st).log =
      [.iter k st.dividend.all st.divisor.all st.quotient.low,
        .shl 64 st.quotient.low 1, .shr 128 st.divisor.all 1] ++
      (restoringLoop k
        { dividend := if st.dividend.all ≥ st.divisor.all then
            utwords.ofAll (sub128 st.dividend.all st.divisor.all) else st.dividend,
          divisor := utwords.ofAll (st.divisor.all / 2),
          quotient :=
            { low := if st.dividend.all ≥ st.divisor.all then
                (st.quotient.low * 2 % 2 ^ 64) ||| 1 else st.quotient.low * 2 % 2 ^ 64,
              high := st.quotient.high } }).log := by
  have h1 : ((1 : Nat) : Int) = 1 := rfl
  rw [restoringLoop]
  simp only [Run.tell, Run.bind_mk_ok, ← h1, shl_eq (show 1 < 64 by norm_num),
    shr_eq (show 1 < 128 by norm_num), pow_one, List.cons_append, List.nil_append]
  by_cases h : st.dividend.all ≥ st.divisor.all
  · simp only [if_pos h]
  · simp only [if_neg h]

/-- Invariant of the restoring-division loop at every loop head.  With `k + 1` passes left the
loop heads are visited with the counters `k, k - 1, ..., 0`; at the head with counter `i` the
working divisor is `b * 2 ^ i`, and the accumulator `Q` and the working remainder `R` satisfy
`a = Q * (b * 2 ^ (i + 1)) + R`, `R < b * 2 ^ (i + 1)` and `Q < 2 ^ 63`. -/
theorem restoringLoop_iters (a b : Nat) : ∀ (k j : Nat) (st : LoopState),
    j + k + 1 ≤ 64 → st.quotient.low < 2 ^ j → st.divisor.all = b * 2 ^ k →
    b * 2 ^ k < 2 ^ 128 → st.dividend.all < 2 ^ 128 →
    a = st.quotient.low * (b * 2 ^ (k + 1)) + st.dividend.all →
    st.dividend.all < b * 2 ^ (k + 1) →
    (itersOf (restoringLoop (k + 1) st).log).map (fun x => x.1) = (List.range (k + 1)).reverse ∧
    ∀ x ∈ itersOf (restoringLoop (k + 1) st).log,
      x.2.2.1 = b * 2 ^ x.1 ∧ a = x.2.2.2 * (b * 2 ^ (x.1 + 1)) + x.2.1 ∧
      x.2.1 < b * 2 ^ (x.1 + 1) ∧ x.2.2.2 < 2 ^ 63 := by
  intro k
  induction k with
  | zero =>
    intro j st hj hq hD hDlt hRlt ha hR
    have h0 : ∀ s : LoopState, (restoringLoop 0 s).log = [] := fun _ => rfl
    rw [restoringLoop_succ_log, h0, List.append_nil]
    have hq63 : st.quotient.low < 2 ^ 63 :=
      lt_of_lt_of_le hq (Nat.pow_le_pow_right (by norm_num) (by omega))
    have hlog : itersOf [Op.iter 0 st.dividend.all st.divisor.all st.quotient.low,
        Op.shl 64 st.quotient.low 1, Op.shr 128 st.divisor.all 1] =
        [(0, st.dividend.all, st.divisor.all, st.quotient.low)] := rfl
    rw [hlog]
    refine ⟨rfl, ?_⟩
    intro x hx
    rw [List.mem_singleton] at hx
    subst hx
    exact ⟨hD, ha, hR, hq63⟩
  | succ k ih =>
    intro j st hj hq hD hDlt hRlt ha hR
    rw [restoringLoop_succ_log, itersOf_append]
    have hq63 : st.quotient.low < 2 ^ 63 :=
      lt_of_lt_of_le hq (Nat.pow_le_pow_right (by norm_num) (by omega))
    have hhead : itersOf [Op.iter (k + 1) st.dividend.all st.divisor.all st.quotient.low,
        Op.shl 64 st.quotient.low 1, Op.shr 128 st.divisor.all 1] =
        [(k + 1, st.dividend.all, st.divisor.all, st.quotient.low)] := rfl
    rw [hhead]
    have hq64 : st.quotient.low * 2 < 2 ^ 64 := by omega
    have hpj : (2 : Nat) ^ (j + 1) = 2 ^ j * 2 := pow_succ _ _
    have hpk : b * 2 ^ (k + 1) = b * 2 ^ k * 2 := by rw [pow_succ]; ring
    have hpk2 : b * 2 ^ (k + 1 + 1) = b * 2 ^ k * 4 := by rw [pow_succ, pow_succ]; ring
    have hD0 := hD
    have ha0 := ha
    have hR0 := hR
    rw [hpk] at hD hDlt
    rw [hpk2] at ha hR
    have hdiv : st.divisor.all / 2 = b * 2 ^ k := by omega
    have hrange : (List.range (k + 1 + 1)).reverse = (k + 1) :: (List.range (k + 1)).reverse := by
      rw [List.range_succ, List.reverse_append]
      rfl
    have key : (itersOf (restoringLoop (k + 1)
          { dividend := if st.dividend.all ≥ st.divisor.all then
              utwords.ofAll (sub128 st.dividend.all st.divisor.all) else st.dividend,
            divisor := utwords.ofAll (st.divisor.all / 2),
            quotient :=
              { low := if st.dividend.all ≥ st.divisor.all then
                  (st.quotient.low * 2 % 2 ^ 64) ||| 1 else st.quotient.low * 2 % 2 ^ 64,
                high := st.quotient.high } }).log).map (fun x => x.1) =
          (List.range (k + 1)).reverse ∧
        ∀ x ∈ itersOf (restoringLoop (k + 1)
          { dividend := if st.dividend.all ≥ st.divisor.all then
              utwords.ofAll (sub128 st.dividend.all st.divisor.all) else st.dividend,
            divisor := utwords.ofAll (st.divisor.all / 2),
            quotient :=
              { low := if st.dividend.all ≥ st.divisor.all then
                  (st.quotient.low * 2 % 2 ^ 64) ||| 1 else st.quotient.low * 2 % 2 ^ 64,
                high := st.quotient.high } }).log,
          x.2.2.1 = b * 2 ^ x.1 ∧ a = x.2.2.2 * (b * 2 ^ (x.1 + 1)) + x.2.1 ∧
          x.2.1 < b * 2 ^ (x.1 + 1) ∧ x.2.2.2 < 2 ^ 63 := by
      rw [Nat.mod_eq_of_lt hq64, Nat.mul_comm _ 2, lor_one_of_even]
      by_cases h : st.dividend.all ≥ st.divisor.all
      · simp only [if_pos h]
        have hsub : sub128 st.dividend.all st.divisor.all =
            st.dividend.all - st.divisor.all := by
          unfold sub128; omega
        rw [hsub]
        have h2 : (2 * st.quotient.low + 1) * (b * 2 ^ k * 2) =
            st.quotient.low * (b * 2 ^ k * 4) + b * 2 ^ k * 2 := by ring
        apply ih (j + 1)
        · omega
        · show 2 * st.quotient.low + 1 < _
          omega
        · show (utwords.ofAll (st.divisor.all / 2)).all = _
          rw [all_ofAll (by omega), hdiv]
        · omega
        · show (utwords.ofAll (st.dividend.all - st.divisor.all)).all < _
          rw [all_ofAll (by omega)]; omega
        · show a = (2 * st.quotient.low + 1) * (b * 2 ^ (k + 1)) +
            (utwords.ofAll (st.dividend.all - st.divisor.all)).all
          rw [all_ofAll (by omega), hpk, h2]; omega
        · show (utwords.ofAll (st.dividend.all - st.divisor.all)).all < _
          rw [all_ofAll (by omega), hpk]; omega
      · simp only [if_neg h]
        have h2 : 2 * st.quotient.low * (b * 2 ^ k * 2) =
            st.quotient.low * (b * 2 ^ k * 4) := by ring
        apply ih (j + 1)
        · omega
        · show 2 * st.quotient.low < _
          omega
        · show (utwords.ofAll (st.divisor.all / 2)).all = _
          rw [all_ofAll (by omega), hdiv]
        · omega
        · show st.dividend.all < _
          omega
        · show a = (2 * st.quotient.low) * (b * 2 ^ (k + 1)) + st.dividend.all
          rw [hpk, h2]; omega
        · show st.dividend.all < _
          rw [hpk]; omega
    obtain ⟨key1, key2⟩ := key
    constructor
    · rw [List.map_append, key1, hrange]
      rfl
    · intro x hx
      rw [List.mem_append, List.mem_singleton] at hx
      rcases hx with rfl | hx
      · exact ⟨hD0, ha0, hR0, hq63⟩
      · exact key2 x hx

theorem Run.log_bind_pure {α β : Type} (x : Run α) (f : α → β) :
    (x >>= fun a => (pure (f a) : Run β)).log = x.log := by
  show (Run.andThen x _).log = _
  unfold Run.andThen
  cases h : x.res with
  | error e => rfl
  | ok a => exact List.append_nil _

/-- The record of the slow path of `MyDivMod1` when the shift count is not negative: the two
leading-zero counts, the shift of the divisor, then the record of the loop. -/
theorem MyDivMod1_slow_log {a b : Nat} (ha : a < 2 ^ 128) (hb : b < 2 ^ 128)
    (hbh : b / 2 ^ 64 ≠ 0) (hah : a / 2 ^ 64 ≠ 0)
    (hclz : clz64 (a / 2 ^ 64) ≤ clz64 (b / 2 ^ 64)) :
    b * 2 ^ (clz64 (b / 2 ^ 64) - clz64 (a / 2 ^ 64)) < 2 ^ 128 ∧
    (MyDivMod1 a b).log =
      [.clz (b / 2 ^ 64), .clz (a / 2 ^ 64),
        .shl 128 b ((clz64 (b / 2 ^ 64) - clz64 (a / 2 ^ 64) : Nat) : Int)] ++
      (restoringLoop (clz64 (b / 2 ^ 64) - clz64 (a / 2 ^ 64) + 1)
        { dividend := utwords.ofAll a,
          divisor := utwords.ofAll (b * 2 ^ (clz64 (b / 2 ^ 64) - clz64 (a / 2 ^ 64))),
          quotient := { low := 0, high := 0 } }).log := by
  obtain ⟨hb1, hb2⟩ := clz_high_bounds hb hbh
  obtain ⟨hsb, -, -⟩ := clz64_spec hbh (show b / 2 ^ 64 < 2 ^ 64 by omega)
  unfold MyDivMod1
  simp only [ofAll_high hb, ofAll_high ha, if_neg hbh, clzll_eq hbh, clzll_eq hah,
    Run.bind_mk_ok, all_ofAll hb]
  generalize clz64 (b / 2 ^ 64) = sb at *
  generalize clz64 (a / 2 ^ 64) = sa at *
  obtain ⟨k, rfl⟩ : ∃ k, sb = sa + k := ⟨sb - sa, by omega⟩
  have hshift : ((sa + k : Nat) : Int) - (sa : Int) = ((k : Nat) : Int) := by omega
  have hcount : (((k : Nat) : Int) + 1).toNat = k + 1 := by omega
  have hsub : sa + k - sa = k := by omega
  have hsa : 0 < 2 ^ sa := Nat.pow_pos (by norm_num)
  have hpow : b * 2 ^ (sa + k) = b * 2 ^ k * 2 ^ sa := by rw [pow_add]; ring
  rw [hpow] at hb2
  have hD : b * 2 ^ k < 2 ^ 128 := by
    have : b * 2 ^ k * 1 ≤ b * 2 ^ k * 2 ^ sa := Nat.mul_le_mul_left _ hsa
    omega
  rw [hshift, hcount, hsub]
  simp only [shl_eq (show k < 128 by omega), Run.bind_mk_ok, Nat.mod_eq_of_lt hD,
    Run.log_bind_pure, List.cons_append, List.nil_append]
  exact ⟨hD, trivial⟩

/-- The whole run of the slow path of `MyDivMod1` when the shift count is negative: it ends at
the shift of the divisor, before the loop. -/
theorem MyDivMod1_negative_shift_run {a b : Nat} (ha : a < 2 ^ 128) (hb : b < 2 ^ 128)
    (hbh : b / 2 ^ 64 ≠ 0) (hah : a / 2 ^ 64 ≠ 0)
    (hclz : clz64 (b / 2 ^ 64) < clz64 (a / 2 ^ 64)) :
    MyDivMod1 a b =
      ⟨[.clz (b / 2 ^ 64), .clz (a / 2 ^ 64),
        .shl 128 b ((clz64 (b / 2 ^ 64) : Int) - (clz64 (a / 2 ^ 64) : Int))],
       .error .shiftCount⟩ := by
  unfold MyDivMod1
  simp only [ofAll_high hb, ofAll_high ha, if_neg hbh, clzll_eq hbh, clzll_eq hah,
    Run.bind_mk_ok, all_ofAll hb]
  have h : ¬ ((0 : Int) ≤ (clz64 (b / 2 ^ 64) : Int) - (clz64 (a / 2 ^ 64) : Int) ∧
      (clz64 (b / 2 ^ 64) : Int) - (clz64 (a / 2 ^ 64) : Int) < ((128 : Nat) : Int)) := by
    omega
  simp only [shl, if_neg h]
  rfl

/-- The trial remainder of line 70 (and 84): `hi - (hi / vn1) * vn1` is `hi mod vn1`. -/
theorem sub64_mul64_div {hi : Nat} (vn1 : Nat) (hhi : hi < 2 ^ 64) :
    sub64 hi (mul64 (hi / vn1) vn1) = hi % vn1 := by
  have h1 : hi / vn1 * vn1 + hi % vn1 = hi := Nat.div_add_mod' _ _
  generalize hi / vn1 = q at h1 ⊢
  generalize hi % vn1 = r at h1 ⊢
  have h2 : mul64 q vn1 = q * vn1 := mul64_of_lt (by omega)
  rw [h2]
  unfold sub64
  omega

/-- Bounds on what the digit-correction loop evaluates: with a normalised divisor `V` and a
high part `hi < V`, the product of line 70 fits in 64 bits, and so do `q * vn0` and
`b * rhat + d` at every evaluation of the loop condition. -/
theorem tests_bounds {V hi d : Nat} (hV1 : 2 ^ 63 ≤ V) (hV2 : V < 2 ^ 64) (hhi : hi < V)
    (hd : d < 2 ^ 32) :
    hi / (V / 2 ^ 32) * (V / 2 ^ 32) < 2 ^ 64 ∧
    ∀ t ∈ correctTests (V / 2 ^ 32) (V % 2 ^ 32) d (hi / (V / 2 ^ 32))
        (sub64 hi (mul64 (hi / (V / 2 ^ 32)) (V / 2 ^ 32))),
      t.1 * (V % 2 ^ 32) < 2 ^ 64 ∧ b * t.2 + d < 2 ^ 64 := by
  have hVdef : V = V / 2 ^ 32 * 2 ^ 32 + V % 2 ^ 32 := (Nat.div_add_mod' V (2 ^ 32)).symm
  rw [sub64_mul64_div _ (by omega)]
  generalize V / 2 ^ 32 = vn1 at hVdef ⊢
  have hvn0lt : V % 2 ^ 32 < 2 ^ 32 := Nat.mod_lt _ (by norm_num)
  generalize V % 2 ^ 32 = vn0 at hVdef hvn0lt ⊢
  have hvn1lt : vn1 < 2 ^ 32 := by omega
  have hvn1 : 2 ^ 31 ≤ vn1 := by omega
  have hqm : hi / vn1 * vn1 + hi % vn1 = hi := Nat.div_add_mod' _ _
  have hrlt : hi % vn1 < vn1 := Nat.mod_lt _ (by omega)
  generalize hi / vn1 = q at hqm ⊢
  generalize hi % vn1 = r at hqm hrlt ⊢
  refine ⟨by omega, ?_⟩
  intro t ht
  obtain ⟨h1, h2, h3⟩ := correctTests_inv vn0 d (by omega) hvn1lt
    (show hi < 2 ^ 64 by omega) q r hqm (by omega) t ht
  have hb : b = 2 ^ 32 := rfl
  rw [hb]
  refine ⟨?_, by omega⟩
  -- the tested digit is at most `2 ^ 32 + 1`
  have ht1 : t.1 ≤ 2 ^ 32 + 1 := by
    by_contra hcon
    have h4 : (2 ^ 32 + 2) * vn1 ≤ t.1 * vn1 := Nat.mul_le_mul_right vn1 (by omega)
    omega
  have h5 : t.1 * vn0 ≤ (2 ^ 32 + 1) * vn0 := Nat.mul_le_mul_right vn0 ht1
  omega

/-- From any state, the loop `for (; shift >= 0; --shift)` enters its body once for each of the
counters `n - 1, ..., 0`, where `n = max(shift + 1, 0)`: the shifts in the body are by `1`. -/
theorem restoringLoop_counters : ∀ (n : Nat) (st : LoopState),
    (itersOf (restoringLoop n st).log).map (fun x => x.1) = (List.range n).reverse := by
  intro n
  induction n with
  | zero => intro st; rfl
  | succ k ih =>
    intro st
    rw [restoringLoop_succ_log, itersOf_append, List.map_append, ih, List.range_succ,
      List.reverse_append]
    rfl

/-! ## The slow path: quotient size and the vector of the specification -/

/-- A quotient by a divisor of at least `2 ^ 64` fits in 64 bits. -/
theorem slow_quotient_lt {a b : Nat} (ha : a < 2 ^ 128) (hbh : b / 2 ^ 64 ≠ 0) :
    a / b < 2 ^ 64 := by
  have hb : 2 ^ 64 ≤ b := by omega
  apply (Nat.div_lt_iff_lt_mul (by omega)).2
  have : 2 ^ 64 * 2 ^ 64 ≤ 2 ^ 64 * b := Nat.mul_le_mul_left _ hb
  omega

/-- The vector of the specification for a divisor that spans both words:
`2 ^ 65 / (2 ^ 64 + 1) = 1` with remainder `2 ^ 64 - 1`. -/
theorem MyDivMod1_vector_slow :
    (MyDivMod1 (2 ^ 65) (2 ^ 64 + 1)).res = .ok (1, 2 ^ 64 - 1) :=
  MyDivMod1_res_of_le (by norm_num) (by norm_num) (by norm_num)

/-- Where the shift count is not negative, the run of the slow path has a result and enters
the body of the loop exactly `shift + 1` times, at most 64 times, with the counters
`shift, shift - 1, ..., 0`. -/
theorem MyDivMod1_loop_heads {a b : Nat} (ha : a < 2 ^ 128) (hb : b < 2 ^ 128)
    (hbh : b / 2 ^ 64 ≠ 0) (hah : a / 2 ^ 64 ≠ 0)
    (hclz : clz64 (a / 2 ^ 64) ≤ clz64 (b / 2 ^ 64)) :
    (MyDivMod1 a b).res = .ok (a / b, a % b) ∧
    (itersOf (MyDivMod1 a b).log).map (fun x => x.1) =
      (List.range (clz64 (b / 2 ^ 64) - clz64 (a / 2 ^ 64) + 1)).reverse ∧
    (itersOf (MyDivMod1 a b).log).length = clz64 (b / 2 ^ 64) - clz64 (a / 2 ^ 64) + 1 ∧
    clz64 (b / 2 ^ 64) - clz64 (a / 2 ^ 64) + 1 ≤ 64 := by
  obtain ⟨hsb, -, -⟩ := clz64_spec hbh (show b / 2 ^ 64 < 2 ^ 64 by omega)
  have hres := MyDivMod1_slow_res ha hb hbh hah hclz
  have key : (itersOf (MyDivMod1 a b).log).map (fun x => x.1) =
      (List.range (clz64 (b / 2 ^ 64) - clz64 (a / 2 ^ 64) + 1)).reverse := by
    obtain ⟨hD, hlog⟩ := MyDivMod1_slow_log ha hb hbh hah hclz
    obtain ⟨ha1, ha2⟩ := clz_high_bounds ha hah
    obtain ⟨hb1, hb2⟩ := clz_high_bounds hb hbh
    rw [hlog, itersOf_append]
    generalize clz64 (b / 2 ^ 64) = sb at *
    generalize clz64 (a / 2 ^ 64) = sa at *
    obtain ⟨k, rfl⟩ : ∃ k, sb = sa + k := ⟨sb - sa, by omega⟩
    have hsub : sa + k - sa = k := by omega
    rw [hsub] at hD ⊢
    have hsa : 0 < 2 ^ sa := Nat.pow_pos (by norm_num)
    have hpow : b * 2 ^ (sa + k) = b * 2 ^ k * 2 ^ sa := by rw [pow_add]; ring
    rw [hpow] at hb1
    have hR : a < b * 2 ^ (k + 1) := by
      by_contra hcon
      have h1 : b * 2 ^ (k + 1) * 2 ^ sa ≤ a * 2 ^ sa := Nat.mul_le_mul_right _ (by omega)
      have h2 : b * 2 ^ (k + 1) * 2 ^ sa = 2 * (b * 2 ^ k * 2 ^ sa) := by rw [pow_succ]; ring
      omega
    have h := (restoringLoop_iters a b k 0
      { dividend := utwords.ofAll a, divisor := utwords.ofAll (b * 2 ^ k),
        quotient := { low := 0, high := 0 } }
      (by omega) (by show 0 < 2 ^ 0; norm_num)
      (by show (utwords.ofAll _).all = _; rw [all_ofAll hD])
      hD (by show (utwords.ofAll a).all < _; rw [all_ofAll ha]; exact ha)
      (by show a = 0 * _ + (utwords.ofAll a).all; rw [all_ofAll ha]; omega)
      (by show (utwords.ofAll a).all < _; rw [all_ofAll ha]; exact hR)).1
    rw [← h]
    rfl
  have hlen := congrArg List.length key
  rw [List.length_map, List.length_reverse, List.length_range] at hlen
  exact ⟨hres, key, hlen, by omega⟩

/-! ## The claims -/

/-- C1, at failing inputs.  The claim asks `MyDivMod1(a, b)` to return a quotient and a remainder
with `a = q * b + r` and `r < b` for every nonzero `b`.  For `a = 0`, `b = 2 ^ 64` the run
evaluates `__builtin_clzll(0)` on the high word of the dividend and has no result; for
`a = 2 ^ 64`, `b = 2 ^ 65` it shifts the divisor left by `-1` and has no result. -/
theorem C1_division_identity_undefined :
    MyDivMod1 0 (2 ^ 64) = ⟨[.clz 1, .clz 0], .error .clzOfZero⟩ ∧
    MyDivMod1 (2 ^ 64) (2 ^ 65) =
      ⟨[.clz 2, .clz 1, .shl 128 (2 ^ 65) (-1)], .error .shiftCount⟩ :=
  ⟨rfl, rfl⟩

/-- C2: for 64-bit `u1`, `u0`, `v` with `v ≠ 0` and `u1 < v`, `PrimitiveDiv(u1, u0, v)` returns
a 64-bit quotient `q` and stores a 64-bit remainder `r` with `u1 * 2 ^ 64 + u0 = q * v + r`
and `r < v`. -/
theorem C2_PrimitiveDiv_division_identity (u1 u0 v : Nat) (hu0 : u0 < 2 ^ 64)
    (hv : v < 2 ^ 64) (hv0 : v ≠ 0) (hu1 : u1 < v) :
    ∃ q r : Nat, (PrimitiveDiv u1 u0 v).res = .ok (q, r) ∧ q < 2 ^ 64 ∧ r < 2 ^ 64 ∧
      u1 * 2 ^ 64 + u0 = q * v + r ∧ r < v := by
  have hvpos : 0 < v := by omega
  have hr : (u1 * 2 ^ 64 + u0) % v < v := Nat.mod_lt _ hvpos
  refine ⟨_, _, PrimitiveDiv_res u1 u0 v hv0 hv hu1 hu0, ?_, by omega, (Nat.div_add_mod' _ _).symm, hr⟩
  apply (Nat.div_lt_iff_lt_mul hvpos).2
  have : (u1 + 1) * 2 ^ 64 ≤ v * 2 ^ 64 := Nat.mul_le_mul_right _ hu1
  rw [Nat.mul_comm]
  omega

/-- C2 at `u1 = 1`, `u0 = 0`, `v = 3`. -/
theorem C2_PrimitiveDiv_division_identity_witness :
    ∃ q r : Nat, (PrimitiveDiv 1 0 3).res = .ok (q, r) ∧ q < 2 ^ 64 ∧ r < 2 ^ 64 ∧
      1 * 2 ^ 64 + 0 = q * 3 + r ∧ r < 3 :=
  C2_PrimitiveDiv_division_identity 1 0 3 (by decide) (by decide) (by decide) (by decide)

/-- C3, at a failing input.  The claim asks `operator/` and `operator%` to agree with the
reference division for every nonzero divisor.  For `a = 5`, `b = 2 ^ 64` (reference quotient
`0`, remainder `5`) both operators evaluate `__builtin_clzll(0)` and have no result. -/
theorem C3_operators_undefined :
    (operatorDiv 5 (2 ^ 64)).res = .error .clzOfZero ∧
    (operatorMod 5 (2 ^ 64)).res = .error .clzOfZero :=
  ⟨rfl, rfl⟩

/-- C4 as stated fails: for `a = 5` neither `operator/(a, 0)` nor `operator%(a, 0)` ends with
a divide-by-zero error. -/
theorem C4_divide_by_zero_counterexample :
    (operatorDiv 5 0).res ≠ .error .divByZero ∧ (operatorMod 5 0).res ≠ .error .divByZero := by
  constructor
  · rw [show (operatorDiv 5 0).res = .ok (2 ^ 128 - 1) from rfl]
    exact fun h => nomatch h
  · rw [show (operatorMod 5 0).res = .ok (2 ^ 64 - 1) from rfl]
    exact fun h => nomatch h

/-- C4 as amended: the code has no zero-divisor check; for every `a`, `operator/(a, 0)`
returns `2 ^ 128 - 1` and `operator%(a, 0)` returns `2 ^ 64 - 1`, and neither evaluates a
leading-zero count, a shift or a division. -/
theorem C4_zero_divisor_returns_sentinels (a : Nat) :
    operatorDiv a 0 =
      ⟨[.call 0 (a / 2 ^ 64 % 2 ^ 64) 0, .call (2 ^ 64 - 1) (a % 2 ^ 64) 0],
        .ok (2 ^ 128 - 1)⟩ ∧
    operatorMod a 0 =
      ⟨[.call 0 (a / 2 ^ 64 % 2 ^ 64) 0, .call (2 ^ 64 - 1) (a % 2 ^ 64) 0],
        .ok (2 ^ 64 - 1)⟩ := by
  have e1 : ({ low := Uint128Low64 a, high := Uint128High64 a } : utwords).all / 2 ^ 64 % 2 ^ 64
      = a / 2 ^ 64 % 2 ^ 64 := by
    show (a / 2 ^ 64 % 2 ^ 64 * 2 ^ 64 + a % 2 ^ 64) / 2 ^ 64 % 2 ^ 64 = _
    omega
  have e2 : ({ low := Uint128Low64 a, high := Uint128High64 a } : utwords).all % 2 ^ 64
      = a % 2 ^ 64 := by
    show (a / 2 ^ 64 % 2 ^ 64 * 2 ^ 64 + a % 2 ^ 64) % 2 ^ 64 = _
    omega
  have e3 : ({ low := Uint128Low64 0, high := Uint128High64 0 } : utwords).all = 0 := rfl
  constructor
  · simp only [operatorDiv, e3, MyDivMod1_zero_divisor, e1, e2]
    rfl
  · simp only [operatorMod, e3, MyDivMod1_zero_divisor, e1, e2]
    rfl

/-- C5: whenever `u1 ≥ v` (in particular whenever `v = 0`), `PrimitiveDiv(u1, u0, v)` returns
the quotient `2 ^ 64 - 1` and stores the remainder `2 ^ 64 - 1`, and its record of evaluated
leading-zero counts, shifts and divisions is empty. -/
theorem C5_overflow_sentinel (u1 u0 v : Nat) (h : u1 ≥ v) :
    PrimitiveDiv u1 u0 v = ⟨[], .ok (2 ^ 64 - 1, 2 ^ 64 - 1)⟩ := by
  unfold PrimitiveDiv
  rw [if_pos h]
  rfl

/-- C5 at `u1 = 7`, `u0 = 9`, `v = 0` and at `u1 = v = 2 ^ 64 - 1`. -/
theorem C5_overflow_sentinel_witness :
    PrimitiveDiv 7 9 0 = ⟨[], .ok (2 ^ 64 - 1, 2 ^ 64 - 1)⟩ ∧
    PrimitiveDiv (2 ^ 64 - 1) 0 (2 ^ 64 - 1) = ⟨[], .ok (2 ^ 64 - 1, 2 ^ 64 - 1)⟩ :=
  ⟨C5_overflow_sentinel 7 9 0 (by decide), C5_overflow_sentinel _ 0 _ (le_refl _)⟩

/-- C6: for every nonzero 128-bit `b`, `MyDivMod1(b, b)` returns quotient `1` and
remainder `0`. -/
theorem C6_equal_operands (b : Nat) (hb0 : b ≠ 0) (hb : b < 2 ^ 128) :
    (MyDivMod1 b b).res = .ok (1, 0) := by
  have h := MyDivMod1_res_of_le hb hb0 (le_refl b)
  rwa [Nat.div_self (by omega), Nat.mod_self] at h

/-- C6 at `b = 3` (high word zero) and at `b = 2 ^ 64 + 1` (high word nonzero). -/
theorem C6_equal_operands_witness :
    (MyDivMod1 3 3).res = .ok (1, 0) ∧ (MyDivMod1 (2 ^ 64 + 1) (2 ^ 64 + 1)).res = .ok (1, 0) :=
  ⟨C6_equal_operands 3 (by decide) (by decide),
   C6_equal_operands (2 ^ 64 + 1) (by decide) (by decide)⟩

/-- C7, at the failing input named by the claim.  The claim asks `MyDivMod1(b - 1, b)` to return
quotient `0` and remainder `b - 1` for every `b > 0`, `b = 2 ^ 64` included.  For `b = 2 ^ 64`
the dividend `2 ^ 64 - 1` has high word `0`, the run evaluates `__builtin_clzll(0)` and has no
result. -/
theorem C7_quotient_zero_undefined :
    MyDivMod1 (2 ^ 64 - 1) (2 ^ 64) = ⟨[.clz 1, .clz 0], .error .clzOfZero⟩ :=
  rfl

/-- C8: for every 128-bit `a`, `MyDivMod1(a, 1)` returns quotient `a` and remainder `0`; when
`a.high ≥ 1` it makes the two calls `PrimitiveDiv(0, a.high, 1)` and `PrimitiveDiv(0, a.low, 1)`,
when `a.high = 0` the single call `PrimitiveDiv(0, a.low, 1)`. -/
theorem C8_division_by_one (a : Nat) (ha : a < 2 ^ 128) :
    (MyDivMod1 a 1).res = .ok (a, 0) ∧
    (1 ≤ a / 2 ^ 64 →
      callsOf (MyDivMod1 a 1).log = [(0, a / 2 ^ 64, 1), (0, a % 2 ^ 64, 1)]) ∧
    (a / 2 ^ 64 = 0 → callsOf (MyDivMod1 a 1).log = [(0, a % 2 ^ 64, 1)]) := by
  obtain ⟨h1, h2⟩ := MyDivMod1_fast_calls ha (b := 1) (by decide) (by decide)
  refine ⟨?_, ?_, ?_⟩
  · have h := MyDivMod1_fast_res ha (b := 1) (by decide) (by decide)
    rwa [Nat.div_one, Nat.mod_one] at h
  · intro hge
    have h := h2 hge
    rwa [Nat.mod_one] at h
  · intro h0
    have h := h1 (by omega)
    rwa [h0] at h

/-- C8 at `a = 2 ^ 128 - 1`: quotient `2 ^ 128 - 1`, remainder `0`, through two calls. -/
theorem C8_division_by_one_witness :
    (MyDivMod1 (2 ^ 128 - 1) 1).res = .ok (2 ^ 128 - 1, 0) ∧
    callsOf (MyDivMod1 (2 ^ 128 - 1) 1).log = [(0, 2 ^ 64 - 1, 1), (0, 2 ^ 64 - 1, 1)] :=
  ⟨(C8_division_by_one (2 ^ 128 - 1) (by decide)).1,
   (C8_division_by_one (2 ^ 128 - 1) (by decide)).2.1 (by decide)⟩

/-- C9: for 128-bit `a` and nonzero `b` with `b.high = 0`, every call
`PrimitiveDiv(u1, u0, v)` made by `MyDivMod1(a, b)` has `v = b.low ≠ 0` and `u1 < v`, so none
returns the overflow sentinel.  When `a.high < b.low` there is the single call
`(a.high, a.low, b.low)`; otherwise the first call is `(0, a.high, b.low)`, it stores the
remainder `a.high mod b.low`, and the second call is `(a.high mod b.low, a.low, b.low)`. -/
theorem C9_sentinel_unreachable (a b : Nat) (ha : a < 2 ^ 128) (hb0 : b ≠ 0)
    (hbh : b / 2 ^ 64 = 0) :
    (∀ c ∈ callsOf (MyDivMod1 a b).log, c.2.2 = b % 2 ^ 64 ∧ c.2.2 ≠ 0 ∧ c.1 < c.2.2) ∧
    (a / 2 ^ 64 < b % 2 ^ 64 →
      callsOf (MyDivMod1 a b).log = [(a / 2 ^ 64, a % 2 ^ 64, b % 2 ^ 64)]) ∧
    (b % 2 ^ 64 ≤ a / 2 ^ 64 →
      callsOf (MyDivMod1 a b).log =
        [(0, a / 2 ^ 64, b % 2 ^ 64), (a / 2 ^ 64 % (b % 2 ^ 64), a % 2 ^ 64, b % 2 ^ 64)] ∧
      (PrimitiveDiv 0 (a / 2 ^ 64) (b % 2 ^ 64)).res =
        .ok (a / 2 ^ 64 / (b % 2 ^ 64), a / 2 ^ 64 % (b % 2 ^ 64)) ∧
      a / 2 ^ 64 % (b % 2 ^ 64) < b % 2 ^ 64) := by
  have hb : b < 2 ^ 64 := by omega
  have hmod : b % 2 ^ 64 = b := Nat.mod_eq_of_lt hb
  rw [hmod]
  obtain ⟨h1, h2⟩ := MyDivMod1_fast_calls ha hb0 hb
  have hr : a / 2 ^ 64 % b < b := Nat.mod_lt _ (by omega)
  refine ⟨?_, h1, fun hge => ⟨h2 hge, ?_, hr⟩⟩
  · intro c hc
    by_cases hlt : a / 2 ^ 64 < b
    · rw [h1 hlt] at hc
      simp only [List.mem_singleton] at hc
      subst hc
      exact ⟨rfl, hb0, hlt⟩
    · rw [h2 (by omega)] at hc
      simp only [List.mem_cons, List.mem_singleton, List.not_mem_nil, or_false] at hc
      rcases hc with rfl | rfl
      · exact ⟨rfl, hb0, by show 0 < b; omega⟩
      · exact ⟨rfl, hb0, hr⟩
  · have h := PrimitiveDiv_res 0 (a / 2 ^ 64) b hb0 hb (by omega) (by omega)
    simpa only [Nat.zero_mul, Nat.zero_add] using h

/-- C9 at `a = 2 ^ 66 + 5`, `b = 3`: the two calls `(0, 4, 3)` and `(1, 5, 3)`. -/
theorem C9_sentinel_unreachable_witness :
    callsOf (MyDivMod1 (2 ^ 66 + 5) 3).log = [(0, 4, 3), (1, 5, 3)] :=
  ((C9_sentinel_unreachable (2 ^ 66 + 5) 3 (by decide) (by decide) (by decide)).2.2
    (by decide)).1

/-- C10, at a failing input.  The claim asks every `__builtin_clzll` evaluated by
`MyDivMod1(a, b)` to have a nonzero argument.  For `a = 5`, `b = 2 ^ 64` (`a.high = 0`,
`b.high = 1`) the run evaluates `__builtin_clzll(a.high) = __builtin_clzll(0)`. -/
theorem C10_clz_of_zero_evaluated :
    Op.clz 0 ∈ (MyDivMod1 5 (2 ^ 64)).log ∧
    MyDivMod1 5 (2 ^ 64) = ⟨[.clz 1, .clz 0], .error .clzOfZero⟩ :=
  ⟨by decide, rfl⟩

/-- C11: for 128-bit `a` and `b` with `b.high = 0`, `b.low ≠ 0`, `MyDivMod1(a, b)` returns a
quotient `q` and a remainder `r` with `r.high = 0`, `q.high = a.high / b.low` (which is `0`
exactly when `a.high < b.low`), and `(q.low, r.low)` the result of
`PrimitiveDiv(a.high mod b.low, a.low, b.low)`; when `a.high < b.low` the only call made is
`PrimitiveDiv(a.high, a.low, b.low)`. -/
theorem C11_fast_path_structure (a b : Nat) (ha : a < 2 ^ 128) (hbh : b / 2 ^ 64 = 0)
    (hbl : b % 2 ^ 64 ≠ 0) :
    ∃ q r : Nat, (MyDivMod1 a b).res = .ok (q, r) ∧
      r / 2 ^ 64 = 0 ∧
      q / 2 ^ 64 = a / 2 ^ 64 / (b % 2 ^ 64) ∧
      (q / 2 ^ 64 = 0 ↔ a / 2 ^ 64 < b % 2 ^ 64) ∧
      (PrimitiveDiv (a / 2 ^ 64 % (b % 2 ^ 64)) (a % 2 ^ 64) (b % 2 ^ 64)).res =
        .ok (q % 2 ^ 64, r % 2 ^ 64) ∧
      (a / 2 ^ 64 < b % 2 ^ 64 →
        callsOf (MyDivMod1 a b).log = [(a / 2 ^ 64, a % 2 ^ 64, b % 2 ^ 64)]) := by
  have hb : b < 2 ^ 64 := by omega
  have hmod : b % 2 ^ 64 = b := Nat.mod_eq_of_lt hb
  rw [hmod] at hbl ⊢
  have hbpos : 0 < b := by omega
  have hal : a % 2 ^ 64 < 2 ^ 64 := Nat.mod_lt _ (by norm_num)
  have hr : a / 2 ^ 64 % b < b := Nat.mod_lt _ hbpos
  have hres := MyDivMod1_fast_res ha hbl hb
  have hpd := PrimitiveDiv_res (a / 2 ^ 64 % b) (a % 2 ^ 64) b hbl hb hr hal
  have hqh : a / b / 2 ^ 64 = a / 2 ^ 64 / b := by
    rw [Nat.div_div_eq_div_mul, Nat.div_div_eq_div_mul, Nat.mul_comm]
  -- the low words of the quotient and of the remainder
  have hsplit : a / 2 ^ 64 * 2 ^ 64 + a % 2 ^ 64 = a := Nat.div_add_mod' _ _
  have hd1 : a / 2 ^ 64 / b * b + a / 2 ^ 64 % b = a / 2 ^ 64 := Nat.div_add_mod' _ _
  have hlow : a / b % 2 ^ 64 = (a / 2 ^ 64 % b * 2 ^ 64 + a % 2 ^ 64) / b ∧
      a % b % 2 ^ 64 = (a / 2 ^ 64 % b * 2 ^ 64 + a % 2 ^ 64) % b := by
    generalize a / 2 ^ 64 / b = qh at hd1
    generalize a / 2 ^ 64 % b = rh at hd1 hr ⊢
    have hd0 : (rh * 2 ^ 64 + a % 2 ^ 64) / b * b + (rh * 2 ^ 64 + a % 2 ^ 64) % b =
        rh * 2 ^ 64 + a % 2 ^ 64 := Nat.div_add_mod' _ _
    have hr0 : (rh * 2 ^ 64 + a % 2 ^ 64) % b < b := Nat.mod_lt _ hbpos
    have hql : (rh * 2 ^ 64 + a % 2 ^ 64) / b < 2 ^ 64 := by
      apply (Nat.div_lt_iff_lt_mul hbpos).2
      have : (rh + 1) * 2 ^ 64 ≤ b * 2 ^ 64 := Nat.mul_le_mul_right _ hr
      rw [Nat.mul_comm]
      omega
    generalize (rh * 2 ^ 64 + a % 2 ^ 64) / b = ql at hd0 hql ⊢
    generalize (rh * 2 ^ 64 + a % 2 ^ 64) % b = rl at hd0 hr0 ⊢
    have h2 : b * (qh * 2 ^ 64 + ql) = qh * b * 2 ^ 64 + ql * b := by ring
    have h3 := (Nat.div_mod_unique (a := a) (c := rl) (d := qh * 2 ^ 64 + ql) hbpos).2
      ⟨by rw [h2]; omega, hr0⟩
    rw [h3.1, h3.2]
    constructor
    · omega
    · omega
  refine ⟨a / b, a % b, hres, ?_, hqh, ?_, ?_, (MyDivMod1_fast_calls ha hbl hb).1⟩
  · have : a % b < b := Nat.mod_lt _ hbpos
    exact Nat.div_eq_of_lt (by omega)
  · rw [hqh]
    constructor
    · intro h
      by_contra hcon
      have h1 : 1 ≤ a / 2 ^ 64 / b := (Nat.le_div_iff_mul_le hbpos).2 (by omega)
      omega
    · intro h
      exact Nat.div_eq_of_lt h
  · rw [hpd, hlow.1, hlow.2]

/-- C11 at `a = 2 ^ 66 + 5`, `b = 3`. -/
theorem C11_fast_path_structure_witness :
    ∃ q r : Nat, (MyDivMod1 (2 ^ 66 + 5) 3).res = .ok (q, r) ∧
      r / 2 ^ 64 = 0 ∧
      q / 2 ^ 64 = (2 ^ 66 + 5) / 2 ^ 64 / (3 % 2 ^ 64) ∧
      (q / 2 ^ 64 = 0 ↔ (2 ^ 66 + 5) / 2 ^ 64 < 3 % 2 ^ 64) ∧
      (PrimitiveDiv ((2 ^ 66 + 5) / 2 ^ 64 % (3 % 2 ^ 64)) ((2 ^ 66 + 5) % 2 ^ 64)
        (3 % 2 ^ 64)).res = .ok (q % 2 ^ 64, r % 2 ^ 64) ∧
      ((2 ^ 66 + 5) / 2 ^ 64 < 3 % 2 ^ 64 →
        callsOf (MyDivMod1 (2 ^ 66 + 5) 3).log =
          [((2 ^ 66 + 5) / 2 ^ 64, (2 ^ 66 + 5) % 2 ^ 64, 3 % 2 ^ 64)]) :=
  C11_fast_path_structure (2 ^ 66 + 5) 3 (by decide) (by decide) (by decide)

/-- C12, at a failing input.  The claim asks `MyDivMod1(a, b)` to return `quotient.high = 0` and
`quotient.low = a / b` for every `a` and every `b` with `b.high ≠ 0`.  For `a = 9`,
`b = 2 ^ 64 + 1` (`a.high = 0`) the run evaluates `__builtin_clzll(0)` and has no result. -/
theorem C12_slow_path_undefined :
    MyDivMod1 9 (2 ^ 64 + 1) = ⟨[.clz 1, .clz 0], .error .clzOfZero⟩ :=
  rfl

/-- C13, at failing inputs.  The claim asks for quotient `0` and remainder `a` whenever
`shift < 0`.  For `a = 2 ^ 64`, `b = 2 ^ 66` the shift count is `61 - 63 = -2`: the run ends at
the shift of the divisor by `-2`, before the loop, and has no result.  For `a = 7`,
`b = 2 ^ 64` the run ends at `__builtin_clzll(0)`. -/
theorem C13_negative_shift_undefined :
    MyDivMod1 (2 ^ 64) (2 ^ 66) =
      ⟨[.clz 4, .clz 1, .shl 128 (2 ^ 66) (-2)], .error .shiftCount⟩ ∧
    MyDivMod1 7 (2 ^ 64) = ⟨[.clz 1, .clz 0], .error .clzOfZero⟩ :=
  ⟨rfl, rfl⟩

/-- C14 as stated fails: for `u1 = 1`, `u0 = 0`, `v = 2 ^ 63` (valid: `v ≠ 0`, `u1 < v`) the
terms `un21 * b + un0` and `q0 * v` of line 93 are both `2 ^ 64`, so they do not fit in
64 bits. -/
theorem C14_no_wraparound_counterexample :
    ∃ l : Locals, (divlu 1 0 (2 ^ 63)).res = .ok l ∧
      l.un21 * b + l.un0 = 2 ^ 64 ∧ l.q0 * l.v = 2 ^ 64 := by
  obtain ⟨l, hl, -, ⟨-, -, hv, -, -, -, hun64, -, hun10, -⟩, ⟨-, -, hun1, hun0⟩,
    ⟨-, -, hun21, -, -⟩, ⟨-, hq0, -, -, -⟩⟩ :=
    divlu_spec 1 0 (2 ^ 63) (by norm_num) (by norm_num) (by norm_num)
      (by norm_num)
  have hc : clz64 (2 ^ 63) = 0 := by decide
  rw [hc] at hv hun64 hun10
  norm_num at hv hun64 hun10
  rw [hun10] at hun1 hun0
  norm_num at hun1 hun0
  rw [hun64, hun1, hv] at hun21
  norm_num at hun21
  rw [hun21, hun0, hv] at hq0
  norm_num at hq0
  refine ⟨l, hl, ?_, ?_⟩
  · rw [hun21, hun0]; rfl
  · rw [hq0, hv]; rfl

/-- C14 as amended: for 64-bit `u1`, `u0`, `v` with `v ≠ 0` and `u1 < v`, the terms `q1 * vn1`
and `q0 * vn1` of lines 70 and 84, the terms `q * vn0` and `b * rhat + un1` (`b * rhat + un0`)
at every evaluation of the two loop conditions, and the returned `q1 * b + q0` are below
`2 ^ 64`.  The terms `un64 * b + un1`, `q1 * v`, `un21 * b + un0` and `q0 * v` are reduced
modulo `2 ^ 64`, and the two differences computed that way are the exact integers
`un64 * b + un1 - q1 * v` and `un21 * b + un0 - q0 * v`. -/
theorem C14_terms_fit_or_wrap_exactly (u1 u0 v : Nat) (hu0 : u0 < 2 ^ 64) (hv : v < 2 ^ 64)
    (hv0 : v ≠ 0) (hu1 : u1 < v) :
    ∃ l : Locals, (divlu u1 u0 v).res = .ok l ∧
      l.q1est * l.vn1 < 2 ^ 64 ∧
      (∀ t ∈ correctTests l.vn1 l.vn0 l.un1 l.q1est (sub64 l.un64 (mul64 l.q1est l.vn1)),
        t.1 * l.vn0 < 2 ^ 64 ∧ b * t.2 + l.un1 < 2 ^ 64) ∧
      l.q0est * l.vn1 < 2 ^ 64 ∧
      (∀ t ∈ correctTests l.vn1 l.vn0 l.un0 l.q0est (sub64 l.un21 (mul64 l.q0est l.vn1)),
        t.1 * l.vn0 < 2 ^ 64 ∧ b * t.2 + l.un0 < 2 ^ 64) ∧
      l.q1 * b + l.q0 < 2 ^ 64 ∧
      l.un21 = sub64 (add64 (mul64 l.un64 b) l.un1) (mul64 l.q1 l.v) ∧
      l.un21 + l.q1 * l.v = l.un64 * b + l.un1 ∧
      sub64 (add64 (mul64 l.un21 b) l.un0) (mul64 l.q0 l.v) + l.q0 * l.v =
        l.un21 * b + l.un0 := by
  obtain ⟨l, hl, -, ⟨-, -, -, hV1, hV2, -, -, hun64, hun10, -⟩, ⟨hvn1, hvn0, hun1, hun0⟩,
    ⟨hq1est, hq1, hun21, hun21w, -⟩, ⟨hq0est, hq0, hrw, -, -⟩⟩ := divlu_spec u1 u0 v hv0 hv hu1 hu0
  have hVpos : 0 < l.v := by omega
  have hb : b = 2 ^ 32 := rfl
  have hun10lt : l.un10 < 2 ^ 64 := by rw [hun10]; exact Nat.mod_lt _ (by norm_num)
  have hun1lt : l.un1 < 2 ^ 32 := by rw [hun1]; omega
  have hun0lt : l.un0 < 2 ^ 32 := by rw [hun0]; omega
  have hun21lt : l.un21 < l.v := by rw [hun21]; exact Nat.mod_lt _ hVpos
  obtain ⟨t1, t2⟩ := tests_bounds hV1 hV2 hun64 hun1lt
  obtain ⟨t3, t4⟩ := tests_bounds hV1 hV2 hun21lt hun0lt
  rw [← hvn1, ← hq1est] at t1 t2
  rw [← hvn1, ← hq0est] at t3 t4
  rw [← hvn0] at t2 t4
  -- the digits are below the base
  have hq1lt : l.q1 < 2 ^ 32 := by
    rw [hq1]
    apply (Nat.div_lt_iff_lt_mul hVpos).2
    have : (l.un64 + 1) * 2 ^ 32 ≤ l.v * 2 ^ 32 := Nat.mul_le_mul_right _ hun64
    omega
  have hq0lt : l.q0 < 2 ^ 32 := by
    rw [hq0]
    apply (Nat.div_lt_iff_lt_mul hVpos).2
    have : (l.un21 + 1) * 2 ^ 32 ≤ l.v * 2 ^ 32 := Nat.mul_le_mul_right _ hun21lt
    omega
  have e1 : l.un21 + l.q1 * l.v = l.un64 * b + l.un1 := by
    rw [hun21, hq1, hb, Nat.add_comm]
    exact Nat.div_add_mod' _ _
  have e0 : sub64 (add64 (mul64 l.un21 b) l.un0) (mul64 l.q0 l.v) + l.q0 * l.v =
      l.un21 * b + l.un0 := by
    rw [hrw, hq0, hb, Nat.add_comm]
    exact Nat.div_add_mod' _ _
  exact ⟨l, hl, t1, t2, t3, t4, by rw [hb]; omega, hun21w, e1, e0⟩

/-- C14 as amended, at `u1 = 1`, `u0 = 0`, `v = 2 ^ 63`. -/
theorem C14_terms_fit_or_wrap_exactly_witness :
    ∃ l : Locals, (divlu 1 0 (2 ^ 63)).res = .ok l ∧
      l.q1est * l.vn1 < 2 ^ 64 ∧
      (∀ t ∈ correctTests l.vn1 l.vn0 l.un1 l.q1est (sub64 l.un64 (mul64 l.q1est l.vn1)),
        t.1 * l.vn0 < 2 ^ 64 ∧ b * t.2 + l.un1 < 2 ^ 64) ∧
      l.q0est * l.vn1 < 2 ^ 64 ∧
      (∀ t ∈ correctTests l.vn1 l.vn0 l.un0 l.q0est (sub64 l.un21 (mul64 l.q0est l.vn1)),
        t.1 * l.vn0 < 2 ^ 64 ∧ b * t.2 + l.un0 < 2 ^ 64) ∧
      l.q1 * b + l.q0 < 2 ^ 64 ∧
      l.un21 = sub64 (add64 (mul64 l.un64 b) l.un1) (mul64 l.q1 l.v) ∧
      l.un21 + l.q1 * l.v = l.un64 * b + l.un1 ∧
      sub64 (add64 (mul64 l.un21 b) l.un0) (mul64 l.q0 l.v) + l.q0 * l.v =
        l.un21 * b + l.un0 :=
  C14_terms_fit_or_wrap_exactly 1 0 (2 ^ 63) (by decide) (by decide) (by decide) (by decide)

/-- C15: for 64-bit `u1`, `u0`, `v` with `v ≠ 0` and `u1 < v`, after the first loop
`q1 = (un64 * 2 ^ 32 + un1) / vN < 2 ^ 32` for the normalised divisor `vN = v * 2 ^ s`; the
value `un21` computed modulo `2 ^ 64` is the exact integer `un64 * 2 ^ 32 + un1 - q1 * vN` and
`0 ≤ un21 < vN`; after the second loop `q0 = (un21 * 2 ^ 32 + un0) / vN < 2 ^ 32`; and the
returned quotient is `q1 * 2 ^ 32 + q0`. -/
theorem C15_exact_digits (u1 u0 v : Nat) (hu0 : u0 < 2 ^ 64) (hv : v < 2 ^ 64)
    (hv0 : v ≠ 0) (hu1 : u1 < v) :
    ∃ l : Locals, (divlu u1 u0 v).res = .ok l ∧
      l.v = v * 2 ^ clz64 v ∧
      l.q1 = (l.un64 * 2 ^ 32 + l.un1) / l.v ∧ l.q1 < 2 ^ 32 ∧
      l.un21 = sub64 (add64 (mul64 l.un64 b) l.un1) (mul64 l.q1 l.v) ∧
      (l.un21 : Int) = (l.un64 : Int) * 2 ^ 32 + (l.un1 : Int) - (l.q1 : Int) * (l.v : Int) ∧
      l.un21 < l.v ∧
      l.q0 = (l.un21 * 2 ^ 32 + l.un0) / l.v ∧ l.q0 < 2 ^ 32 ∧
      (PrimitiveDiv u1 u0 v).res = .ok (l.q1 * 2 ^ 32 + l.q0, l.r) := by
  obtain ⟨l, hl, -, ⟨-, -, hlv, hV1, hV2, -, -, hun64, hun10, -⟩, ⟨-, -, hun1, hun0⟩,
    ⟨-, hq1, hun21, hun21w, -⟩, ⟨-, hq0, -, -, -⟩⟩ := divlu_spec u1 u0 v hv0 hv hu1 hu0
  have hVpos : 0 < l.v := by omega
  have hb : b = 2 ^ 32 := rfl
  have hun10lt : l.un10 < 2 ^ 64 := by rw [hun10]; exact Nat.mod_lt _ (by norm_num)
  have hun1lt : l.un1 < 2 ^ 32 := by rw [hun1]; omega
  have hun0lt : l.un0 < 2 ^ 32 := by rw [hun0]; omega
  have hun21lt : l.un21 < l.v := by rw [hun21]; exact Nat.mod_lt _ hVpos
  have hq1lt : l.q1 < 2 ^ 32 := by
    rw [hq1]
    apply (Nat.div_lt_iff_lt_mul hVpos).2
    have : (l.un64 + 1) * 2 ^ 32 ≤ l.v * 2 ^ 32 := Nat.mul_le_mul_right _ hun64
    omega
  have hq0lt : l.q0 < 2 ^ 32 := by
    rw [hq0]
    apply (Nat.div_lt_iff_lt_mul hVpos).2
    have : (l.un21 + 1) * 2 ^ 32 ≤ l.v * 2 ^ 32 := Nat.mul_le_mul_right _ hun21lt
    omega
  have e1 : l.un21 + l.q1 * l.v = l.un64 * 2 ^ 32 + l.un1 := by
    rw [hun21, hq1, Nat.add_comm]
    exact Nat.div_add_mod' _ _
  have eint : (l.un21 : Int) =
      (l.un64 : Int) * 2 ^ 32 + (l.un1 : Int) - (l.q1 : Int) * (l.v : Int) := by
    have h := congrArg (fun n : Nat => (n : Int)) e1
    simp only [Nat.cast_add, Nat.cast_mul, Nat.cast_pow, Nat.cast_ofNat] at h
    linarith
  have hret : add64 (mul64 l.q1 b) l.q0 = l.q1 * 2 ^ 32 + l.q0 := by
    unfold add64 mul64
    rw [hb]
    omega
  have hpd : (PrimitiveDiv u1 u0 v).res = .ok (l.q1 * 2 ^ 32 + l.q0, l.r) := by
    unfold PrimitiveDiv
    rw [if_neg (show ¬ u1 ≥ v by omega)]
    simp only [Run.res_bind, hl, ok_bind, Run.res_pure, hret]
  exact ⟨l, hl, hlv, hq1, hq1lt, hun21w, eint, hun21lt, hq0, hq0lt, hpd⟩

/-- C15 at `u1 = 1`, `u0 = 0`, `v = 3`. -/
theorem C15_exact_digits_witness :
    ∃ l : Locals, (divlu 1 0 3).res = .ok l ∧
      l.v = 3 * 2 ^ clz64 3 ∧
      l.q1 = (l.un64 * 2 ^ 32 + l.un1) / l.v ∧ l.q1 < 2 ^ 32 ∧
      l.un21 = sub64 (add64 (mul64 l.un64 b) l.un1) (mul64 l.q1 l.v) ∧
      (l.un21 : Int) = (l.un64 : Int) * 2 ^ 32 + (l.un1 : Int) - (l.q1 : Int) * (l.v : Int) ∧
      l.un21 < l.v ∧
      l.q0 = (l.un21 * 2 ^ 32 + l.un0) / l.v ∧ l.q0 < 2 ^ 32 ∧
      (PrimitiveDiv 1 0 3).res = .ok (l.q1 * 2 ^ 32 + l.q0, l.r) :=
  C15_exact_digits 1 0 3 (by decide) (by decide) (by decide) (by decide)

/-- C16: for 64-bit `u1`, `u0`, `v` with `v ≠ 0` and `u1 < v`, the run of `PrimitiveDiv` past
the overflow test has a result; `s = clz(v)` lies in `[0, 63]`; when `s = 0` no shift by `s` or
by `64 - s` is evaluated, when `s ≥ 1` the right shift is by `64 - s` in `[1, 63]`; every shift
evaluated has a count in `[0, 63]`; the normalised divisor has its top bit set, `vn1 ≥ 2 ^ 31`,
and both divisions are by `vn1`; `u1 << s` loses no bit and `un64` is below the normalised
divisor. -/
theorem C16_normalization_total (u1 u0 v : Nat) (hu0 : u0 < 2 ^ 64) (hv : v < 2 ^ 64)
    (hv0 : v ≠ 0) (hu1 : u1 < v) :
    ∃ l : Locals, (divlu u1 u0 v).res = .ok l ∧
      l.s = (clz64 v : Int) ∧ clz64 v ≤ 63 ∧
      (clz64 v = 0 →
        (divlu u1 u0 v).log =
          [.clz v, .shr 64 l.v 32, .shr 64 l.un10 32, .div l.un64 l.vn1, .div l.un21 l.vn1,
            .shr 64 (sub64 (add64 (mul64 l.un21 b) l.un0) (mul64 l.q0 l.v)) 0]) ∧
      (1 ≤ clz64 v →
        (divlu u1 u0 v).log =
          [.clz v, .shl 64 v (clz64 v), .shl 64 u1 (clz64 v),
            .shr 64 u0 ((64 - clz64 v : Nat) : Int), .shl 64 u0 (clz64 v),
            .shr 64 l.v 32, .shr 64 l.un10 32, .div l.un64 l.vn1, .div l.un21 l.vn1,
            .shr 64 (sub64 (add64 (mul64 l.un21 b) l.un0) (mul64 l.q0 l.v)) (clz64 v)] ∧
        1 ≤ 64 - clz64 v ∧ 64 - clz64 v ≤ 63) ∧
      (∀ w x k, Op.shr w x k ∈ (divlu u1 u0 v).log → w = 64 ∧ 0 ≤ k ∧ k ≤ 63) ∧
      (∀ w x k, Op.shl w x k ∈ (divlu u1 u0 v).log → w = 64 ∧ 1 ≤ k ∧ k ≤ 63) ∧
      (∀ x y, Op.div x y ∈ (divlu u1 u0 v).log → y = l.vn1) ∧
      (∀ x, Op.clz x ∈ (divlu u1 u0 v).log → x = v) ∧
      2 ^ 31 ≤ l.vn1 ∧ 2 ^ 63 ≤ l.v ∧ l.v < 2 ^ 64 ∧
      u1 * 2 ^ clz64 v < 2 ^ 64 ∧
      l.un64 = u1 * 2 ^ clz64 v + u0 / 2 ^ (64 - clz64 v) ∧ l.un64 < l.v := by
  obtain ⟨l, hl, hlog, ⟨hs, hslt, -, hV1, hV2, hu1s, hun64def, hun64, -, -⟩, ⟨hvn1, -, -, -⟩,
    -, -⟩ := divlu_spec u1 u0 v hv0 hv hu1 hu0
  have hvn1ge : 2 ^ 31 ≤ l.vn1 := by rw [hvn1]; omega
  have hsub : (64 : Int) - (clz64 v : Int) = ((64 - clz64 v : Nat) : Int) := by omega
  have h0 : clz64 v = 0 →
      (divlu u1 u0 v).log =
        [.clz v, .shr 64 l.v 32, .shr 64 l.un10 32, .div l.un64 l.vn1, .div l.un21 l.vn1,
          .shr 64 (sub64 (add64 (mul64 l.un21 b) l.un0) (mul64 l.q0 l.v)) 0] := by
    intro hz
    rw [hlog, if_pos hz, hz]
    rfl
  have h1 : 1 ≤ clz64 v →
      (divlu u1 u0 v).log =
        [.clz v, .shl 64 v (clz64 v), .shl 64 u1 (clz64 v),
          .shr 64 u0 ((64 - clz64 v : Nat) : Int), .shl 64 u0 (clz64 v),
          .shr 64 l.v 32, .shr 64 l.un10 32, .div l.un64 l.vn1, .div l.un21 l.vn1,
          .shr 64 (sub64 (add64 (mul64 l.un21 b) l.un0) (mul64 l.q0 l.v)) (clz64 v)] := by
    intro hpos
    rw [hlog, if_neg (show ¬ clz64 v = 0 by omega), hsub]
    rfl
  refine ⟨l, hl, hs, by omega, h0, fun hpos => ⟨h1 hpos, by omega, by omega⟩, ?_, ?_, ?_, ?_,
    hvn1ge, hV1, hV2, hu1s, hun64def, hun64⟩
  · intro w x k hmem
    rcases Nat.eq_zero_or_pos (clz64 v) with hz | hpos
    · rw [h0 hz] at hmem
      simp only [List.mem_cons, Op.shr.injEq, List.mem_singleton, List.not_mem_nil, or_false,
        false_or, reduceCtorEq] at hmem
      rcases hmem with ⟨rfl, -, rfl⟩ | ⟨rfl, -, rfl⟩ | ⟨rfl, -, rfl⟩ <;>
        exact ⟨rfl, by norm_num, by norm_num⟩
    · rw [h1 hpos] at hmem
      simp only [List.mem_cons, Op.shr.injEq, List.mem_singleton, List.not_mem_nil, or_false,
        false_or, reduceCtorEq] at hmem
      rcases hmem with ⟨rfl, -, rfl⟩ | ⟨rfl, -, rfl⟩ | ⟨rfl, -, rfl⟩ | ⟨rfl, -, rfl⟩
      · exact ⟨rfl, by omega, by omega⟩
      · exact ⟨rfl, by norm_num, by norm_num⟩
      · exact ⟨rfl, by norm_num, by norm_num⟩
      · exact ⟨rfl, by omega, by omega⟩
  · intro w x k hmem
    rcases Nat.eq_zero_or_pos (clz64 v) with hz | hpos
    · rw [h0 hz] at hmem
      simp only [List.mem_cons, List.mem_singleton, List.not_mem_nil, or_false,
        false_or, reduceCtorEq] at hmem
    · rw [h1 hpos] at hmem
      simp only [List.mem_cons, Op.shl.injEq, List.mem_singleton, List.not_mem_nil, or_false,
        false_or, reduceCtorEq] at hmem
      rcases hmem with ⟨rfl, -, rfl⟩ | ⟨rfl, -, rfl⟩ | ⟨rfl, -, rfl⟩ <;>
        exact ⟨rfl, by omega, by omega⟩
  · intro x y hmem
    rcases Nat.eq_zero_or_pos (clz64 v) with hz | hpos
    · rw [h0 hz] at hmem
      simp only [List.mem_cons, Op.div.injEq, List.mem_singleton, List.not_mem_nil, or_false,
        false_or, reduceCtorEq] at hmem
      rcases hmem with ⟨-, rfl⟩ | ⟨-, rfl⟩ <;> rfl
    · rw [h1 hpos] at hmem
      simp only [List.mem_cons, Op.div.injEq, List.mem_singleton, List.not_mem_nil, or_false,
        false_or, reduceCtorEq] at hmem
      rcases hmem with ⟨-, rfl⟩ | ⟨-, rfl⟩ <;> rfl
  · intro x hmem
    rcases Nat.eq_zero_or_pos (clz64 v) with hz | hpos
    · rw [h0 hz] at hmem
      simp only [List.mem_cons, Op.clz.injEq, List.mem_singleton, List.not_mem_nil, or_false,
        false_or, reduceCtorEq] at hmem
      exact hmem
    · rw [h1 hpos] at hmem
      simp only [List.mem_cons, Op.clz.injEq, List.mem_singleton, List.not_mem_nil, or_false,
        false_or, reduceCtorEq] at hmem
      exact hmem

/-- C16 at `u1 = 1`, `u0 = 0`, `v = 3`. -/
theorem C16_normalization_total_witness :
    ∃ l : Locals, (divlu 1 0 3).res = .ok l ∧ l.s = (clz64 3 : Int) ∧ clz64 3 ≤ 63 ∧
      2 ^ 31 ≤ l.vn1 ∧ 2 ^ 63 ≤ l.v ∧ l.v < 2 ^ 64 ∧ l.un64 < l.v := by
  obtain ⟨l, h1, h2, h3, -, -, -, -, -, -, h4, h5, h6, -, -, h7⟩ :=
    C16_normalization_total 1 0 3 (by decide) (by decide) (by decide) (by decide)
  exact ⟨l, h1, h2, h3, h4, h5, h6, h7⟩

/-- C17: for 64-bit `u1`, `u0`, `v` with `v ≠ 0` and `u1 < v`, the body of each of the two
digit-correction loops of `PrimitiveDiv` is executed at most twice. -/
theorem C17_correction_bounded (u1 u0 v : Nat) (hu0 : u0 < 2 ^ 64) (hv : v < 2 ^ 64)
    (hv0 : v ≠ 0) (hu1 : u1 < v) :
    ∃ l : Locals, (divlu u1 u0 v).res = .ok l ∧ l.iters1 ≤ 2 ∧ l.iters0 ≤ 2 := by
  obtain ⟨l, hl, -, ⟨-, -, -, hV1, hV2, -, -, hun64, -, -⟩, ⟨hvn1, -, -, -⟩,
    ⟨hq1est, -, hun21, -, hi1⟩, ⟨hq0est, -, -, -, hi0⟩⟩ := divlu_spec u1 u0 v hv0 hv hu1 hu0
  have hVpos : 0 < l.v := by omega
  have hun21lt : l.un21 < l.v := by rw [hun21]; exact Nat.mod_lt _ hVpos
  have hvn1ge : 2 ^ 31 ≤ l.vn1 := by rw [hvn1]; omega
  have hvn1lt : l.vn1 < 2 ^ 32 := by rw [hvn1]; omega
  have hr1 : sub64 l.un64 (mul64 l.q1est l.vn1) < 2 ^ 32 := by
    rw [hq1est, sub64_mul64_div _ (by omega)]
    exact lt_trans (Nat.mod_lt _ (by omega)) hvn1lt
  have hr0 : sub64 l.un21 (mul64 l.q0est l.vn1) < 2 ^ 32 := by
    rw [hq0est, sub64_mul64_div _ (by omega)]
    exact lt_trans (Nat.mod_lt _ (by omega)) hvn1lt
  refine ⟨l, hl, ?_, ?_⟩
  · rw [hi1]
    exact correct_iters_le _ _ _ 0 hvn1ge hvn1lt hr1
  · rw [hi0]
    exact correct_iters_le _ _ _ 0 hvn1ge hvn1lt hr0

/-- C17 at `u1 = 2 ^ 64 - 2`, `u0 = 2 ^ 64 - 1`, `v = 2 ^ 64 - 1`. -/
theorem C17_correction_bounded_witness :
    ∃ l : Locals, (divlu (2 ^ 64 - 2) (2 ^ 64 - 1) (2 ^ 64 - 1)).res = .ok l ∧
      l.iters1 ≤ 2 ∧ l.iters0 ≤ 2 :=
  C17_correction_bounded (2 ^ 64 - 2) (2 ^ 64 - 1) (2 ^ 64 - 1) (by decide) (by decide)
    (by decide) (by decide)

/-- C18, at a failing input.  The claim asks the loop of lines 132-143 to execute exactly
`max(shift + 1, 0)` iterations for every `a`, `b` with `b.high ≠ 0` and `a.high ≠ 0`.  For
`a = 2 ^ 64 + 1`, `b = 2 ^ 65` the shift count is `clz(2) - clz(1) = 62 - 63 = -1`: the run
ends at the shift of the divisor by `-1` at line 128, before the loop guard is tested, so it
has no result and no number of iterations. -/
theorem C18_loop_count_undefined :
    MyDivMod1 (2 ^ 64 + 1) (2 ^ 65) =
      ⟨[.clz 2, .clz 1, .shl 128 (2 ^ 65) (-1)], .error .shiftCount⟩ :=
  rfl

/-- C19: for every 128-bit `a`, `MyDivMod1(a, 0)` takes the branch `b.high = 0`; it calls
`PrimitiveDiv(0, a.high, 0)` and `PrimitiveDiv(2 ^ 64 - 1, a.low, 0)`, which both return the
overflow sentinel without evaluating anything; it returns the quotient `2 ^ 128 - 1` and the
remainder `2 ^ 64 - 1`; and the run evaluates no leading-zero count, shift or division. -/
theorem C19_zero_divisor_result (a : Nat) (ha : a < 2 ^ 128) :
    (utwords.ofAll 0).high = 0 ∧
    MyDivMod1 a 0 =
      ⟨[.call 0 (a / 2 ^ 64) 0, .call (2 ^ 64 - 1) (a % 2 ^ 64) 0],
        .ok (2 ^ 128 - 1, 2 ^ 64 - 1)⟩ ∧
    PrimitiveDiv 0 (a / 2 ^ 64) 0 = ⟨[], .ok (2 ^ 64 - 1, 2 ^ 64 - 1)⟩ ∧
    PrimitiveDiv (2 ^ 64 - 1) (a % 2 ^ 64) 0 = ⟨[], .ok (2 ^ 64 - 1, 2 ^ 64 - 1)⟩ ∧
    (2 ^ 128 - 1 : Nat) = (2 ^ 64 - 1) * 2 ^ 64 + (2 ^ 64 - 1) := by
  have h : a / 2 ^ 64 % 2 ^ 64 = a / 2 ^ 64 := by omega
  have hp : ∀ x y : Nat, PrimitiveDiv x y 0 = ⟨[], .ok (2 ^ 64 - 1, 2 ^ 64 - 1)⟩ := by
    intro x y
    unfold PrimitiveDiv
    rw [if_pos (Nat.zero_le x)]
    rfl
  refine ⟨rfl, ?_, hp _ _, hp _ _, by norm_num⟩
  rw [MyDivMod1_zero_divisor, h]

/-- C19 at `a = 2 ^ 100 + 7`. -/
theorem C19_zero_divisor_result_witness :
    MyDivMod1 (2 ^ 100 + 7) 0 =
      ⟨[.call 0 (2 ^ 36) 0, .call (2 ^ 64 - 1) 7 0], .ok (2 ^ 128 - 1, 2 ^ 64 - 1)⟩ :=
  (C19_zero_divisor_result (2 ^ 100 + 7) (by decide)).2.1

/-- C20: for 128-bit `a`, `b` with `b.high ≠ 0`, `a.high ≠ 0` and
`shift = clz(b.high) - clz(a.high) ≥ 0`, the shift of the divisor loses no bit
(`b * 2 ^ shift < 2 ^ 128`); the loop heads are visited with the counters
`shift, shift - 1, ..., 0`; at the head with counter `k` the working divisor is `b * 2 ^ k`
and the accumulator `Q` and working remainder `R` satisfy `a = Q * (b * 2 ^ (k + 1)) + R` and
`R < b * 2 ^ (k + 1)`; and the run returns `q`, `r` with `a = q * b + r` and `r < b`. -/
theorem C20_loop_invariant (a b : Nat) (ha : a < 2 ^ 128) (hb : b < 2 ^ 128)
    (hbh : b / 2 ^ 64 ≠ 0) (hah : a / 2 ^ 64 ≠ 0)
    (hclz : clz64 (a / 2 ^ 64) ≤ clz64 (b / 2 ^ 64)) :
    b * 2 ^ (clz64 (b / 2 ^ 64) - clz64 (a / 2 ^ 64)) < 2 ^ 128 ∧
    Op.shl 128 b ((clz64 (b / 2 ^ 64) - clz64 (a / 2 ^ 64) : Nat) : Int) ∈ (MyDivMod1 a b).log ∧
    (itersOf (MyDivMod1 a b).log).map (fun x => x.1) =
      (List.range (clz64 (b / 2 ^ 64) - clz64 (a / 2 ^ 64) + 1)).reverse ∧
    (∀ x ∈ itersOf (MyDivMod1 a b).log,
      x.2.2.1 = b * 2 ^ x.1 ∧ a = x.2.2.2 * (b * 2 ^ (x.1 + 1)) + x.2.1 ∧
      x.2.1 < b * 2 ^ (x.1 + 1)) ∧
    ∃ q r : Nat, (MyDivMod1 a b).res = .ok (q, r) ∧ a = q * b + r ∧ r < b := by
  obtain ⟨hD, hlog⟩ := MyDivMod1_slow_log ha hb hbh hah hclz
  obtain ⟨ha1, ha2⟩ := clz_high_bounds ha hah
  obtain ⟨hb1, hb2⟩ := clz_high_bounds hb hbh
  obtain ⟨hsb, -, -⟩ := clz64_spec hbh (show b / 2 ^ 64 < 2 ^ 64 by omega)
  have hres := MyDivMod1_slow_res ha hb hbh hah hclz
  have hbpos : 0 < b := by omega
  have hmem : Op.shl 128 b ((clz64 (b / 2 ^ 64) - clz64 (a / 2 ^ 64) : Nat) : Int) ∈
      (MyDivMod1 a b).log := by
    rw [hlog]
    simp only [List.cons_append, List.nil_append, List.mem_cons, true_or, or_true]
  have hiters : itersOf (MyDivMod1 a b).log =
      itersOf (restoringLoop (clz64 (b / 2 ^ 64) - clz64 (a / 2 ^ 64) + 1)
        { dividend := utwords.ofAll a,
          divisor := utwords.ofAll (b * 2 ^ (clz64 (b / 2 ^ 64) - clz64 (a / 2 ^ 64))),
          quotient := { low := 0, high := 0 } }).log := by
    rw [hlog, itersOf_append]
    rfl
  rw [hiters]
  generalize clz64 (b / 2 ^ 64) = sb at *
  generalize clz64 (a / 2 ^ 64) = sa at *
  obtain ⟨k, rfl⟩ : ∃ k, sb = sa + k := ⟨sb - sa, by omega⟩
  have hsub : sa + k - sa = k := by omega
  rw [hsub] at hD hmem ⊢
  have hsa : 0 < 2 ^ sa := Nat.pow_pos (by norm_num)
  have hpow : b * 2 ^ (sa + k) = b * 2 ^ k * 2 ^ sa := by rw [pow_add]; ring
  rw [hpow] at hb1
  have hR : a < b * 2 ^ (k + 1) := by
    by_contra hcon
    have h1 : b * 2 ^ (k + 1) * 2 ^ sa ≤ a * 2 ^ sa := Nat.mul_le_mul_right _ (by omega)
    have h2 : b * 2 ^ (k + 1) * 2 ^ sa = 2 * (b * 2 ^ k * 2 ^ sa) := by rw [pow_succ]; ring
    omega
  obtain ⟨h1, h2⟩ := restoringLoop_iters a b k 0
    { dividend := utwords.ofAll a, divisor := utwords.ofAll (b * 2 ^ k),
      quotient := { low := 0, high := 0 } }
    (by omega) (by show 0 < 2 ^ 0; norm_num)
    (by show (utwords.ofAll _).all = _; rw [all_ofAll hD])
    hD (by show (utwords.ofAll a).all < _; rw [all_ofAll ha]; exact ha)
    (by show a = 0 * _ + (utwords.ofAll a).all; rw [all_ofAll ha]; omega)
    (by show (utwords.ofAll a).all < _; rw [all_ofAll ha]; exact hR)
  refine ⟨hD, hmem, h1, fun x hx => ⟨(h2 x hx).1, (h2 x hx).2.1, (h2 x hx).2.2.1⟩,
    a / b, a % b, hres, ?_, Nat.mod_lt _ hbpos⟩
  exact (Nat.div_add_mod' a b).symm

/-- C20 at `a = 2 ^ 65`, `b = 2 ^ 64 + 1` (`shift = clz(1) - clz(2) = 63 - 62 = 1`): two loop
heads, with the counters `1` and `0`. -/
theorem C20_loop_invariant_witness :
    (itersOf (MyDivMod1 (2 ^ 65) (2 ^ 64 + 1)).log).map (fun x => x.1) =
      (List.range (clz64 ((2 ^ 64 + 1) / 2 ^ 64) - clz64 (2 ^ 65 / 2 ^ 64) + 1)).reverse :=
  (C20_loop_invariant (2 ^ 65) (2 ^ 64 + 1) (by decide) (by decide) (by decide) (by decide)
    (by decide)).2.2.1

end Coolio
